import Mathlib

/-!
Verification of the errbin error-handling core (Go package `errbin`).

The Go sources embedded here:
* `errors.Is` over linear wrap-chains is modelled by `errIs` on lists of
  atoms: an error value is the list of atoms of its wrap-chain, head first;
  unwrapping once drops the head, and `errIs x y` succeeds when `y` is `x`
  or is reached from `x` by unwrapping (i.e. `y` is a suffix of `x`).
* `ErrorNode` (fields `Error`, `Handler`, `Parent`, `Children`) becomes the
  nested inductive `ErrorNode α`; the Go `Parent` pointer is represented by
  the identity (`Err`) of the node it points to, which is faithful because
  the code never reads `Parent` except as the (discarded) first component
  of an exact `findPosition` hit.
* Mutation of the global `errorTree` slice becomes explicit state passing:
  each operation takes the forest and returns the new forest.
-/

namespace Errbin

/-- An error identity / error value: its wrap-chain, own atom first. -/
abbrev Err := List Nat

/-- Go `errors.Is(target, ref)`: repeatedly compare and unwrap `target`. -/
def errIs : Err → Err → Bool
  | x, y =>
    if x = y then true
    else
      match x with
      | [] => false
      | _ :: t => errIs t y

/-- Type `ErrorNode` of `errbin.go`: identity, handler, parent pointer
(as the parent's identity), ordered children. -/
inductive ErrorNode (α : Type) : Type where
  | mk (err : Err) (handler : α) (parent : Option Err)
      (children : List (ErrorNode α)) : ErrorNode α

/-- Field `Error` of `ErrorNode`. -/
def ErrorNode.err {α : Type} : ErrorNode α → Err
  | .mk e _ _ _ => e

/-- Field `Handler` of `ErrorNode`. -/
def ErrorNode.handler {α : Type} : ErrorNode α → α
  | .mk _ h _ _ => h

/-- Field `Parent` of `ErrorNode`, as the parent's identity. -/
def ErrorNode.parent {α : Type} : ErrorNode α → Option Err
  | .mk _ _ p _ => p

/-- Field `Children` of `ErrorNode`. -/
def ErrorNode.children {α : Type} : ErrorNode α → List (ErrorNode α)
  | .mk _ _ _ cs => cs

/-- Total number of nodes in a forest (termination measure). -/
def sizeL {α : Type} : List (ErrorNode α) → Nat
  | [] => 0
  | .mk _ _ _ cs :: rest => 1 + sizeL cs + sizeL rest

theorem sizeL_append {α : Type} (xs ys : List (ErrorNode α)) :
    sizeL (xs ++ ys) = sizeL xs + sizeL ys := by
  induction xs with
  | nil => simp [sizeL]
  | cons n rest ih =>
    cases n with
    | mk e h p cs => simp [sizeL, ih]; omega

/-- Induction principle for forests that recurses both into the children of
the first tree and into the remaining trees. -/
theorem forest_induction {α : Type} (motive : List (ErrorNode α) → Prop)
    (hnil : motive [])
    (hcons : ∀ (e : Err) (hd : α) (pa : Option Err)
      (cs rest : List (ErrorNode α)),
      motive cs → motive rest → motive (.mk e hd pa cs :: rest)) :
    ∀ tree, motive tree
  | [] => hnil
  | .mk e hd pa cs :: rest =>
    hcons e hd pa cs rest
      (forest_induction motive hnil hcons cs)
      (forest_induction motive hnil hcons rest)
termination_by tree => sizeL tree
decreasing_by
  all_goals simp [sizeL, sizeL_append]
  all_goals omega

/-- Result of the `trave` closure inside `findPosition` of `finder.go`:
`dup n` is the `(node.Parent, node)` exact hit (the parent component is
never read by the callers when the node component is non-nil), `ancestor p`
is `(p, nil)`, and `nohit` is `(nil, nil)`. -/
inductive PosResult (α : Type) : Type where
  | dup (n : ErrorNode α) : PosResult α
  | ancestor (p : ErrorNode α) : PosResult α
  | nohit : PosResult α

/-- The recursive `trave` of `findPosition` (`finder.go`). -/
def trave {α : Type} (target : Err) : List (ErrorNode α) → PosResult α
  | [] => .nohit
  | .mk e hd pa cs :: rest =>
    if errIs target e then
      if errIs e target then .dup (.mk e hd pa cs)
      else
        match trave target cs with
        | .dup c => .dup c
        | .ancestor p => .ancestor p
        | .nohit => .ancestor (.mk e hd pa cs)
    else trave target rest
termination_by tree => sizeL tree
decreasing_by
  all_goals simp [sizeL, sizeL_append]
  all_goals omega

/-- Function `findPosition` of `finder.go` applied to the forest. -/
def findPosition {α : Type} (target : Err) (tree : List (ErrorNode α)) :
    PosResult α :=
  trave target tree

/-- Function `findHandler` of `finder.go`: the `(handler, true)` / `(nil, false)`
result is modelled as `Option α`. -/
def findHandler {α : Type} (err : Err) (tree : List (ErrorNode α)) :
    Option α :=
  match findPosition err tree with
  | .dup n => some n.handler
  | .ancestor p => some p.handler
  | .nohit => none

/-- Result of replaying `findPosition` while performing the mutation
`parent.Children = append(parent.Children, newNode)` of `Use`
functionally: `attached` carries the rebuilt forest. -/
inductive AttachResult (α : Type) : Type where
  | dup : AttachResult α
  | attached (forest : List (ErrorNode α)) : AttachResult α
  | nohit : AttachResult α

/-- The `findPosition` traversal of `Use` fused with the child-append
mutation: same control flow as `trave`, but in the `parent != nil` case the
new node (with its `Parent` pointer set to the parent, as in `Use`) is
appended to that parent's `Children` and the surrounding forest rebuilt. -/
def traveAttach {α : Type} (target : Err) (h : α) :
    List (ErrorNode α) → AttachResult α
  | [] => .nohit
  | .mk e hd pa cs :: rest =>
    if errIs target e then
      if errIs e target then .dup
      else
        match traveAttach target h cs with
        | .dup => .dup
        | .attached cs2 => .attached (.mk e hd pa cs2 :: rest)
        | .nohit =>
            .attached
              (.mk e hd pa (cs ++ [.mk target h (some e) []]) :: rest)
    else
      match traveAttach target h rest with
      | .dup => .dup
      | .attached rest2 => .attached (.mk e hd pa cs :: rest2)
      | .nohit => .nohit
termination_by tree => sizeL tree
decreasing_by
  all_goals simp [sizeL, sizeL_append]
  all_goals omega

/-- The body of `findChildren` (`errbin.go`): the Go loop runs the index
`i` from `len(errorTree)-1` down to `0`; `findChildrenLoop target tree k`
is that loop over `i = k-1, …, 0`, appending index and root on a match. -/
def findChildrenLoop {α : Type} (newErr : Err) (tree : List (ErrorNode α)) :
    Nat → List Nat × List (ErrorNode α)
  | 0 => ([], [])
  | k + 1 =>
    match tree[k]? with
    | some root =>
      if errIs root.err newErr then
        ([k] ++ (findChildrenLoop newErr tree k).1,
         [root] ++ (findChildrenLoop newErr tree k).2)
      else findChildrenLoop newErr tree k
    | none => findChildrenLoop newErr tree k

/-- Function `findChildren` of `errbin.go`: indices (descending) and roots (in the
loop's descending order) whose identity wraps `newErr`. -/
def findChildren {α : Type} (newErr : Err) (tree : List (ErrorNode α)) :
    List Nat × List (ErrorNode α) :=
  findChildrenLoop newErr tree tree.length

/-- Function `removeRoots` of `errbin.go`: erase the given indices in order
(`errorTree = append(errorTree[:idx], errorTree[idx+1:]...)`). -/
def removeRoots {α : Type} (idxs : List Nat) (tree : List (ErrorNode α)) :
    List (ErrorNode α) :=
  idxs.foldl (fun t i => t.eraseIdx i) tree

/-- The three error results `Use` can produce
(`fmt.Errorf` messages in `errbin.go`). -/
inductive RegError : Type where
  | nilHandler : RegError
  | nilError : RegError
  | duplicate : RegError
deriving DecidableEq, Repr

/-- One iteration of the loop body of `Use` (`errbin.go`) for a non-nil
identity: attach under the nearest matching node, else promote the roots
it wraps under a new node, else append a fresh root. -/
def useOne {α : Type} (h : α) (newErr : Err) (tree : List (ErrorNode α)) :
    List (ErrorNode α) × Option RegError :=
  match traveAttach newErr h tree with
  | .dup => (tree, some .duplicate)
  | .attached t2 => (t2, none)
  | .nohit =>
    if 0 < (findChildren newErr tree).2.length then
      (removeRoots (findChildren newErr tree).1 tree ++
        [.mk newErr h none (findChildren newErr tree).2], none)
    else (tree ++ [.mk newErr h none []], none)

/-- The loop of `Use` over its variadic `errs`, with the nil-error check;
`none` in the list models a nil `error` argument. -/
def useList {α : Type} (h : α) :
    List (Option Err) → List (ErrorNode α) →
      List (ErrorNode α) × Option RegError
  | [], tree => (tree, none)
  | none :: _, tree => (tree, some .nilError)
  | some e :: rest, tree =>
    match useOne h e tree with
    | (t2, some er) => (t2, some er)
    | (t2, none) => useList h rest t2

/-- Function `Use` of `errbin.go`: nil-handler check, then the registration loop.
The returned forest is the state of the global `errorTree` after the call
(partial effects of a failing call included). -/
def Use {α : Type} (handler : Option α) (errs : List (Option Err))
    (tree : List (ErrorNode α)) : List (ErrorNode α) × Option RegError :=
  match handler with
  | none => (tree, some .nilHandler)
  | some h => useList h errs tree

/-- A sequence of `Use` calls folded over a forest, starting states chained
(`errbin` accumulates them in the global `errorTree`). -/
def applyCalls {α : Type} (calls : List (Option α × List (Option Err)))
    (tree : List (ErrorNode α)) : List (ErrorNode α) :=
  calls.foldl (fun t c => (Use c.1 c.2 t).1) tree

/-- The queue loop of the breadth-first `findHandler` of the earlier
source version (`src/unnamed/part_000`): keep the last match, enqueue the
children of matching nodes. -/
def bfsLoop {α : Type} (err : Err) :
    List (ErrorNode α) → Option (ErrorNode α) → Option (ErrorNode α)
  | [], best => best
  | .mk e hd pa cs :: queue, best =>
    if errIs err e then bfsLoop err (queue ++ cs) (some (.mk e hd pa cs))
    else bfsLoop err queue best
termination_by queue _ => sizeL queue
decreasing_by
  all_goals simp [sizeL, sizeL_append]
  all_goals omega

/-- The breadth-first `findHandler` of `src/unnamed/part_000`. -/
def findHandlerBFS {α : Type} (err : Err) (tree : List (ErrorNode α)) :
    Option α :=
  match bfsLoop err tree none with
  | some n => some n.handler
  | none => none

/-- Identities of every node of the forest (each node and all its
descendants). -/
def allErrs {α : Type} : List (ErrorNode α) → List Err
  | [] => []
  | .mk e _ _ cs :: rest => e :: (allErrs cs ++ allErrs rest)

/-- The `(identity, handler)` pair of every node of the forest. -/
def allPairs {α : Type} : List (ErrorNode α) → List (Err × α)
  | [] => []
  | .mk e h _ cs :: rest => (e, h) :: (allPairs cs ++ allPairs rest)

/-- For every node: its identity together with the identities of its
strict descendants. -/
def entries {α : Type} : List (ErrorNode α) → List (Err × List Err)
  | [] => []
  | .mk e _ _ cs :: rest => (e, allErrs cs) :: (entries cs ++ entries rest)

/-- Does some node of the forest have an identity wrapping `e`
(`errIs x.err e` for some node `x`)? -/
def subtreeWraps {α : Type} (e : Err) : List (ErrorNode α) → Bool
  | [] => false
  | .mk e2 _ _ cs :: rest =>
    errIs e2 e || subtreeWraps e cs || subtreeWraps e rest

/-- Sibling-order condition of the forest built by `Use`: no node inside a
later sibling's subtree wraps an earlier sibling's identity. -/
def levelOKb {α : Type} : List (ErrorNode α) → Bool
  | [] => true
  | .mk e _ _ _ :: rest => !subtreeWraps e rest && levelOKb rest

/-- Per-node conditions of the forest built by `Use`: every child's
identity strictly wraps its parent's, and every child list satisfies the
sibling-order condition, recursively. -/
def nodesOK {α : Type} : List (ErrorNode α) → Bool
  | [] => true
  | .mk e _ _ cs :: rest =>
    cs.all (fun c => errIs c.err e && !errIs e c.err) &&
      levelOKb cs && nodesOK cs && nodesOK rest

/-- Root identities are pairwise unrelated under `errIs`. -/
def rootsUnrel {α : Type} : List (ErrorNode α) → Bool
  | [] => true
  | n :: rest =>
    rest.all (fun m => !errIs m.err n.err && !errIs n.err m.err) &&
      rootsUnrel rest

/-- The well-formedness the lookup needs: sibling-order condition at the
top level and per-node conditions everywhere. -/
def WF {α : Type} (tree : List (ErrorNode α)) : Bool :=
  levelOKb tree && nodesOK tree

/-- The full invariant maintained by registration: `WF` plus pairwise
unrelated roots. -/
def WFR {α : Type} (tree : List (ErrorNode α)) : Bool :=
  WF tree && rootsUnrel tree

/-- Strict hierarchy condition (the spec's reading of invariant I1, in the
direction matching the code): whenever one registered identity wraps
another, the wrapping node is a strict descendant of the wrapped one. -/
def strictHierarchy {α : Type} (tree : List (ErrorNode α)) : Bool :=
  (entries tree).all (fun p =>
    (entries tree).all (fun q =>
      !errIs q.1 p.1 || q.1 = p.1 || decide (q.1 ∈ p.2)))

/-- Type `ErrorHandler` of `errbin.go`: the effect of a handler on the request
context, given the error being handled. -/
abbrev ErrorHandler (C : Type) := Err → C → C

/-- Type `ErrorMiddleware` of `errbin.go`. -/
abbrev ErrorMiddleware (C : Type) := ErrorHandler C → ErrorHandler C

/-- Function `MiddlewareChain` of `errbin.go`: the loop
`for i := len(middlewares)-1; i >= 0; i-- { eh = middlewares[i](eh) }`
is the left fold over the reversed list. -/
def MiddlewareChain {C : Type} (middlewares : List (ErrorMiddleware C)) :
    ErrorMiddleware C :=
  fun eh => middlewares.reverse.foldl (fun acc m => m acc) eh

/-- Modelled from the spec (§4.3): the onion composition
`m1(m2(...mn(handler)...))` that `MiddlewareChain` is claimed to equal. -/
def onionApply {C : Type} :
    List (ErrorMiddleware C) → ErrorHandler C → ErrorHandler C
  | [], h => h
  | m :: ms, h => m (onionApply ms h)

/-- Function `Chain` of `errbin.go`: run every handler in order on the context. -/
def Chain {C : Type} (handlers : List (ErrorHandler C)) : ErrorHandler C :=
  fun err ctx => handlers.foldl (fun c h => h err c) ctx

/-- Function `UseGlobal` of `errbin.go`: the new value assigned to the global
`globalMiddlewares`. -/
def UseGlobal {C : Type} (middlewares : List (ErrorMiddleware C)) :
    Option (ErrorMiddleware C) :=
  some (MiddlewareChain middlewares)

/-- The zero value of `var globalMiddlewares ErrorMiddleware` before any
`UseGlobal` call: a nil function. -/
def globalMiddlewaresDefault {C : Type} : Option (ErrorMiddleware C) :=
  none

/-- Function `Fallback` of `errbin.go`: unconditionally assign `fn` to the global
`fallbackHandler`; the second argument is the previous value of that
global, which the assignment ignores. -/
def Fallback {C : Type} (fn old : Option (ErrorHandler C)) :
    Option (ErrorHandler C) :=
  fn

/-- A concrete response context: the list of `(status, error)` responses
written so far. -/
abbrev RespCtx := List (Nat × Err)

/-- The initial value of `var fallbackHandler ErrorHandler` in
`errbin.go`: write a 500 response carrying the error. -/
def defaultFallback : ErrorHandler RespCtx :=
  fun err ctx => ctx ++ [(500, err)]

/-- The closure returned by `ErrbinMiddleware` (`errbin.go`), after
`c.Next()` has run: if errors were recorded take the last one, resolve a
handler (falling back to `fallbackHandler`), and invoke
`globalMiddlewares(h)(err, c)`. Both globals are nilable functions;
invoking a nil middleware or (through a middleware) a nil handler is a Go
runtime panic, modelled as `none`. -/
def ErrbinMiddleware {C : Type} (gm : Option (ErrorMiddleware C))
    (fb : Option (ErrorHandler C))
    (tree : List (ErrorNode (ErrorHandler C)))
    (recorded : List Err) (ctx : C) : Option C :=
  match recorded.getLast? with
  | none => some ctx
  | some err =>
    match gm,
      (match findHandler err tree with
       | some hh => some hh
       | none => fb) with
    | some g, some hh => some (g hh err ctx)
    | _, _ => none

/-! ### Properties of `errIs` -/

theorem errIs_iff_suffix : ∀ x y : Err, errIs x y = true ↔ y <:+ x := by
  intro x
  induction x with
  | nil =>
    intro y
    rw [errIs]
    constructor
    · intro h
      split at h
      · simp_all
      · simp_all
    · intro h
      rw [List.suffix_nil.mp h]
      simp
  | cons a t ih =>
    intro y
    rw [errIs]
    by_cases hy : a :: t = y
    · subst hy
      simp
    · rw [if_neg hy, ih y, List.suffix_cons_iff]
      constructor
      · intro h
        exact Or.inr h
      · intro h
        rcases h with h | h
        · exact absurd h.symm hy
        · exact h

theorem errIs_refl (x : Err) : errIs x x = true := by
  rw [errIs.eq_def]
  simp

theorem errIs_trans {x y z : Err} (h1 : errIs x y = true)
    (h2 : errIs y z = true) : errIs x z = true := by
  rw [errIs_iff_suffix] at *
  exact h2.trans h1

theorem errIs_antisymm {x y : Err} (h1 : errIs x y = true)
    (h2 : errIs y x = true) : x = y := by
  rw [errIs_iff_suffix] at *
  exact h2.eq_of_length (Nat.le_antisymm h2.length_le h1.length_le)

theorem errIs_total {x y z : Err} (h1 : errIs x y = true)
    (h2 : errIs x z = true) :
    errIs y z = true ∨ errIs z y = true := by
  simp only [errIs_iff_suffix] at *
  exact List.suffix_or_suffix_of_suffix h2 h1

/-! ### Structural lemmas about forests -/

theorem allErrs_append {α : Type} (xs ys : List (ErrorNode α)) :
    allErrs (xs ++ ys) = allErrs xs ++ allErrs ys := by
  induction xs with
  | nil => simp [allErrs]
  | cons n rest ih =>
    cases n with
    | mk e h p cs => simp [allErrs, ih]

theorem allPairs_append {α : Type} (xs ys : List (ErrorNode α)) :
    allPairs (xs ++ ys) = allPairs xs ++ allPairs ys := by
  induction xs with
  | nil => simp [allPairs]
  | cons n rest ih =>
    cases n with
    | mk e h p cs => simp [allPairs, ih]

theorem entries_append {α : Type} (xs ys : List (ErrorNode α)) :
    entries (xs ++ ys) = entries xs ++ entries ys := by
  induction xs with
  | nil => simp [entries]
  | cons n rest ih =>
    cases n with
    | mk e h p cs => simp [entries, ih]

theorem allErrs_eq_map_fst_allPairs {α : Type} :
    ∀ tree : List (ErrorNode α),
      allErrs tree = (allPairs tree).map Prod.fst := by
  intro tree
  induction tree using forest_induction with
  | hnil => simp [allErrs, allPairs]
  | hcons e hd pa cs rest ihcs ihrest =>
    simp [allErrs, allPairs, ihcs, ihrest]

theorem allErrs_eq_map_fst_entries {α : Type} :
    ∀ tree : List (ErrorNode α),
      allErrs tree = (entries tree).map Prod.fst := by
  intro tree
  induction tree using forest_induction with
  | hnil => simp [allErrs, entries]
  | hcons e hd pa cs rest ihcs ihrest =>
    simp [allErrs, entries, ihcs, ihrest]

theorem mem_allErrs_of_mem_allPairs {α : Type} {tree : List (ErrorNode α)}
    {p : Err × α} (h : p ∈ allPairs tree) : p.1 ∈ allErrs tree := by
  rw [allErrs_eq_map_fst_allPairs]
  exact List.mem_map_of_mem Prod.fst h

theorem mem_allErrs_cases {α : Type} :
    ∀ (tree : List (ErrorNode α)) (x : Err),
      x ∈ allErrs tree ↔
        ∃ n ∈ tree, x = n.err ∨ x ∈ allErrs n.children := by
  intro tree
  induction tree with
  | nil => simp [allErrs]
  | cons n rest ih =>
    cases n with
    | mk e h p cs =>
      intro x
      simp only [allErrs, List.mem_cons, List.mem_append, ih]
      constructor
      · intro hx
        rcases hx with hx | hx | hx
        · exact ⟨.mk e h p cs, Or.inl rfl, Or.inl (by simp [ErrorNode.err, hx])⟩
        · exact ⟨.mk e h p cs, Or.inl rfl, Or.inr (by simpa [ErrorNode.children] using hx)⟩
        · rcases hx with ⟨m, hm, hxm⟩
          exact ⟨m, Or.inr hm, hxm⟩
      · intro hx
        rcases hx with ⟨m, hm | hm, hxm⟩
        · subst hm
          simp only [ErrorNode.err, ErrorNode.children] at hxm
          rcases hxm with hxm | hxm
          · exact Or.inl hxm
          · exact Or.inr (Or.inl hxm)
        · exact Or.inr (Or.inr ⟨m, hm, hxm⟩)

theorem subtreeWraps_append {α : Type} (e : Err)
    (xs ys : List (ErrorNode α)) :
    subtreeWraps e (xs ++ ys) = (subtreeWraps e xs || subtreeWraps e ys) := by
  induction xs with
  | nil => simp [subtreeWraps]
  | cons n rest ih =>
    cases n with
    | mk e2 h p cs =>
      simp [subtreeWraps, ih, Bool.or_assoc]

theorem subtreeWraps_iff {α : Type} :
    ∀ (tree : List (ErrorNode α)) (e : Err),
      subtreeWraps e tree = true ↔
        ∃ x ∈ allErrs tree, errIs x e = true := by
  intro tree
  induction tree using forest_induction with
  | hnil => simp [subtreeWraps, allErrs]
  | hcons e2 hd pa cs rest ihcs ihrest =>
    intro e
    simp only [subtreeWraps, allErrs, Bool.or_eq_true, ihcs, ihrest,
      List.mem_cons, List.mem_append]
    constructor
    · intro h
      rcases h with (h | ⟨x, hx, hxe⟩) | ⟨x, hx, hxe⟩
      · exact ⟨e2, Or.inl rfl, h⟩
      · exact ⟨x, Or.inr (Or.inl hx), hxe⟩
      · exact ⟨x, Or.inr (Or.inr hx), hxe⟩
    · intro h
      rcases h with ⟨x, hx | hx | hx, hxe⟩
      · subst hx
        exact Or.inl (Or.inl hxe)
      · exact Or.inl (Or.inr ⟨x, hx, hxe⟩)
      · exact Or.inr ⟨x, hx, hxe⟩

theorem subtreeWraps_false_of_subset {α : Type}
    {e : Err} {xs ys : List (ErrorNode α)}
    (hsub : ∀ x, x ∈ allErrs xs → x ∈ allErrs ys)
    (h : subtreeWraps e ys = false) : subtreeWraps e xs = false := by
  by_contra hx
  rw [Bool.not_eq_false, subtreeWraps_iff] at hx
  rcases hx with ⟨x, hmem, hxe⟩
  have : subtreeWraps e ys = true := by
    rw [subtreeWraps_iff]
    exact ⟨x, hsub x hmem, hxe⟩
  simp [this] at h

/-! ### Invariant decomposition and wrap-down lemmas -/

theorem WF_cons {α : Type} {e : Err} {hd : α} {pa : Option Err}
    {cs rest : List (ErrorNode α)} :
    WF (.mk e hd pa cs :: rest) = true ↔
      subtreeWraps e rest = false ∧
      (∀ c ∈ cs, errIs c.err e = true ∧ errIs e c.err = false) ∧
      WF cs = true ∧ WF rest = true := by
  simp only [WF, levelOKb, nodesOK, Bool.and_eq_true, Bool.not_eq_true',
    List.all_eq_true]
  tauto

theorem nodesOK_append {α : Type} (xs ys : List (ErrorNode α)) :
    nodesOK (xs ++ ys) = (nodesOK xs && nodesOK ys) := by
  induction xs with
  | nil => simp [nodesOK]
  | cons n rest ih =>
    cases n with
    | mk e h p cs => simp [nodesOK, ih, Bool.and_assoc]

theorem levelOKb_append {α : Type} :
    ∀ (xs ys : List (ErrorNode α)),
      levelOKb (xs ++ ys) = true ↔
        levelOKb xs = true ∧ levelOKb ys = true ∧
        ∀ x ∈ xs, subtreeWraps x.err ys = false := by
  intro xs
  induction xs with
  | nil =>
    intro ys
    simp [levelOKb]
  | cons n rest ih =>
    cases n with
    | mk e h p cs =>
      intro ys
      simp only [List.cons_append, levelOKb, List.append_eq,
        Bool.and_eq_true, Bool.not_eq_true', subtreeWraps_append,
        Bool.or_eq_false_iff, ih, List.forall_mem_cons, ErrorNode.err]
      tauto

theorem mem_entries_self {α : Type} :
    ∀ (tree : List (ErrorNode α)) (n : ErrorNode α), n ∈ tree →
      (n.err, allErrs n.children) ∈ entries tree := by
  intro tree
  induction tree with
  | nil => simp
  | cons m rest ih =>
    cases m with
    | mk e h p cs =>
      intro n hn
      rcases List.mem_cons.mp hn with hn | hn
      · subst hn
        simp [entries, ErrorNode.err, ErrorNode.children]
      · simp only [entries, List.mem_cons, List.mem_append]
        exact Or.inr (Or.inr (ih n hn))

theorem entries_desc_sub {α : Type} :
    ∀ (tree : List (ErrorNode α)) (p : Err × List Err), p ∈ entries tree →
      ∀ d ∈ p.2, d ∈ allErrs tree := by
  intro tree
  induction tree using forest_induction with
  | hnil => simp [entries]
  | hcons e hd pa cs rest ihcs ihrest =>
    intro p hp d hd2
    simp only [entries, List.mem_cons, List.mem_append] at hp
    simp only [allErrs, List.mem_cons, List.mem_append]
    rcases hp with hp | hp | hp
    · subst hp
      exact Or.inr (Or.inl hd2)
    · exact Or.inr (Or.inl (ihcs p hp d hd2))
    · exact Or.inr (Or.inr (ihrest p hp d hd2))

theorem exists_entry_of_mem_allErrs {α : Type}
    {tree : List (ErrorNode α)} {x : Err} (h : x ∈ allErrs tree) :
    ∃ ds, (x, ds) ∈ entries tree := by
  rw [allErrs_eq_map_fst_entries] at h
  rcases List.mem_map.mp h with ⟨⟨p1, p2⟩, hp, hfst⟩
  simp only at hfst
  subst hfst
  exact ⟨p2, hp⟩

/-- Every identity in a node's subtree wraps the node's identity
(transitive closure of the parent-child edges of `nodesOK`). -/
theorem entries_wrap {α : Type} :
    ∀ (tree : List (ErrorNode α)), nodesOK tree = true →
      ∀ p ∈ entries tree, ∀ d ∈ p.2, errIs d p.1 = true := by
  intro tree
  induction tree using forest_induction with
  | hnil => simp [entries]
  | hcons e hd pa cs rest ihcs ihrest =>
    intro hok p hp d hd2
    simp only [nodesOK, Bool.and_eq_true, List.all_eq_true] at hok
    obtain ⟨⟨⟨hedges, hlvl⟩, hcs⟩, hrest⟩ := hok
    simp only [entries, List.mem_cons, List.mem_append] at hp
    rcases hp with hp | hp | hp
    · subst hp
      simp only at hd2
      rcases (mem_allErrs_cases cs d).mp hd2 with ⟨c, hc, hcase⟩
      have hedge := hedges c hc
      simp only [Bool.and_eq_true, Bool.not_eq_true'] at hedge
      rcases hcase with hcase | hcase
      · subst hcase
        exact hedge.1
      · have hcw := ihcs hcs (c.err, allErrs c.children)
          (mem_entries_self cs c hc) d hcase
        exact errIs_trans hcw hedge.1
    · exact ihcs hcs p hp d hd2
    · exact ihrest hrest p hp d hd2

/-- Everything inside the first tree's subtree wraps its root identity. -/
theorem allErrs_wrap {α : Type} {e : Err} {hd : α} {pa : Option Err}
    {cs rest : List (ErrorNode α)}
    (hok : nodesOK (.mk e hd pa cs :: rest) = true) :
    ∀ x ∈ allErrs cs, errIs x e = true := by
  intro x hx
  have hme : ((ErrorNode.mk e hd pa cs).err,
      allErrs (ErrorNode.mk e hd pa cs).children) ∈
        entries (.mk e hd pa cs :: rest) :=
    mem_entries_self _ _ (List.mem_cons_self _ _)
  simpa [ErrorNode.err, ErrorNode.children] using
    entries_wrap _ hok _ hme x (by simpa [ErrorNode.children] using hx)

theorem nodesOK_forall {α : Type} :
    ∀ tree : List (ErrorNode α),
      nodesOK tree = true ↔
        ∀ n ∈ tree,
          (∀ c ∈ n.children, errIs c.err n.err = true ∧
            errIs n.err c.err = false) ∧
          levelOKb n.children = true ∧ nodesOK n.children = true := by
  intro tree
  induction tree with
  | nil => simp [nodesOK]
  | cons n rest ih =>
    cases n with
    | mk e h p cs =>
      simp only [nodesOK, Bool.and_eq_true, List.all_eq_true, ih,
        List.forall_mem_cons, ErrorNode.children, ErrorNode.err,
        Bool.not_eq_true']
      tauto

theorem allErrs_filter_subset {α : Type} (p : ErrorNode α → Bool) :
    ∀ (tree : List (ErrorNode α)) (x : Err),
      x ∈ allErrs (tree.filter p) → x ∈ allErrs tree := by
  intro tree
  induction tree with
  | nil => simp
  | cons n rest ih =>
    cases n with
    | mk e h pa cs =>
      intro x hx
      simp only [List.filter_cons] at hx
      by_cases hp : p (.mk e h pa cs)
      · rw [if_pos hp] at hx
        simp only [allErrs, List.mem_cons, List.mem_append] at hx ⊢
        rcases hx with hx | hx | hx
        · exact Or.inl hx
        · exact Or.inr (Or.inl hx)
        · exact Or.inr (Or.inr (ih x hx))
      · rw [if_neg hp] at hx
        simp only [allErrs, List.mem_cons, List.mem_append]
        exact Or.inr (Or.inr (ih x hx))

theorem levelOKb_filter {α : Type} (p : ErrorNode α → Bool) :
    ∀ tree : List (ErrorNode α), levelOKb tree = true →
      levelOKb (tree.filter p) = true := by
  intro tree
  induction tree with
  | nil => simp
  | cons n rest ih =>
    cases n with
    | mk e h pa cs =>
      intro hl
      simp only [levelOKb, Bool.and_eq_true, Bool.not_eq_true'] at hl
      simp only [List.filter_cons]
      by_cases hp : p (.mk e h pa cs)
      · rw [if_pos hp]
        simp only [levelOKb, Bool.and_eq_true, Bool.not_eq_true']
        exact ⟨subtreeWraps_false_of_subset
          (allErrs_filter_subset p rest) hl.1, ih hl.2⟩
      · rw [if_neg hp]
        exact ih hl.2

theorem nodesOK_filter {α : Type} (p : ErrorNode α → Bool)
    {tree : List (ErrorNode α)} (h : nodesOK tree = true) :
    nodesOK (tree.filter p) = true := by
  rw [nodesOK_forall] at h ⊢
  intro n hn
  exact h n (List.mem_of_mem_filter hn)

theorem nodesOK_reverse {α : Type} {tree : List (ErrorNode α)}
    (h : nodesOK tree = true) : nodesOK tree.reverse = true := by
  rw [nodesOK_forall] at h ⊢
  intro n hn
  exact h n (List.mem_reverse.mp hn)

theorem rootsUnrel_iff_pairwise {α : Type} :
    ∀ tree : List (ErrorNode α),
      rootsUnrel tree = true ↔
        tree.Pairwise (fun a b =>
          errIs a.err b.err = false ∧ errIs b.err a.err = false) := by
  intro tree
  induction tree with
  | nil => simp [rootsUnrel]
  | cons n rest ih =>
    simp only [rootsUnrel, Bool.and_eq_true, List.all_eq_true,
      List.pairwise_cons, ih]
    constructor
    · rintro ⟨h1, h2⟩
      refine ⟨?_, h2⟩
      intro b hb
      have := h1 b hb
      simp only [Bool.and_eq_true, Bool.not_eq_true'] at this
      exact ⟨this.2, this.1⟩
    · rintro ⟨h1, h2⟩
      refine ⟨?_, h2⟩
      intro b hb
      have := h1 b hb
      simp only [Bool.and_eq_true, Bool.not_eq_true']
      exact ⟨this.2, this.1⟩

/-! ### Correctness of the depth-first lookup -/

/-- What each `trave` outcome means for the forest: an exact hit carries a
registered node whose identity is `t` itself; an ancestor hit carries a
registered matching node dominating every matching identity; no hit means
no registered identity matches. -/
def TraveSpec {α : Type} (t : Err) (ns : List (ErrorNode α)) :
    PosResult α → Prop
  | .dup n => n.err = t ∧ (n.err, n.handler) ∈ allPairs ns
  | .ancestor p => (p.err, p.handler) ∈ allPairs ns ∧ errIs t p.err = true ∧
      ∀ e ∈ allErrs ns, errIs t e = true → errIs p.err e = true
  | .nohit => ∀ e ∈ allErrs ns, errIs t e = false

theorem trave_spec {α : Type} (t : Err) :
    ∀ ns : List (ErrorNode α), WF ns = true → TraveSpec t ns (trave t ns) := by
  intro ns
  induction ns using forest_induction with
  | hnil =>
    intro _
    simp [trave, TraveSpec, allErrs]
  | hcons e hd pa cs rest ihcs ihrest =>
    intro hwf
    obtain ⟨hsw, hedges, hwfcs, hwfrest⟩ := WF_cons.mp hwf
    have hnOK : nodesOK (ErrorNode.mk e hd pa cs :: rest) = true := by
      simp only [WF, Bool.and_eq_true] at hwf
      exact hwf.2
    have hwrap : ∀ x ∈ allErrs cs, errIs x e = true := allErrs_wrap hnOK
    rw [trave]
    by_cases h1 : errIs t e = true
    · rw [if_pos h1]
      by_cases h2 : errIs e t = true
      · rw [if_pos h2]
        have het : t = e := errIs_antisymm h1 h2
        simp [TraveSpec, ErrorNode.err, ErrorNode.handler, allPairs, het]
      · rw [if_neg h2]
        have hspec := ihcs hwfcs
        cases htc : trave t cs with
        | dup c =>
          rw [htc] at hspec
          simp only [TraveSpec] at hspec ⊢
          exact ⟨hspec.1, by
            simp only [allPairs, List.mem_cons, List.mem_append]
            exact Or.inr (Or.inl hspec.2)⟩
        | ancestor p =>
          rw [htc] at hspec
          simp only [TraveSpec] at hspec ⊢
          obtain ⟨hpmem, hptp, hpmax⟩ := hspec
          have hpe : errIs p.err e = true :=
            hwrap p.err (mem_allErrs_of_mem_allPairs hpmem)
          refine ⟨by
            simp only [allPairs, List.mem_cons, List.mem_append]
            exact Or.inr (Or.inl hpmem), hptp, ?_⟩
          intro x hx hmx
          simp only [allErrs, List.mem_cons, List.mem_append] at hx
          rcases hx with hx | hx | hx
          · subst hx
            exact hpe
          · exact hpmax x hx hmx
          · rcases errIs_total hmx h1 with hxe | hex
            · exfalso
              have : subtreeWraps e rest = true := by
                rw [subtreeWraps_iff]
                exact ⟨x, hx, hxe⟩
              simp [this] at hsw
            · exact errIs_trans hpe hex
        | nohit =>
          rw [htc] at hspec
          simp only [TraveSpec] at hspec ⊢
          refine ⟨by
            simp [allPairs, ErrorNode.err, ErrorNode.handler], by
            simpa [ErrorNode.err] using h1, ?_⟩
          intro x hx hmx
          simp only [allErrs, List.mem_cons, List.mem_append] at hx
          simp only [ErrorNode.err]
          rcases hx with hx | hx | hx
          · subst hx
            exact errIs_refl x
          · exact absurd hmx (by simp [hspec x hx])
          · rcases errIs_total hmx h1 with hxe | hex
            · exfalso
              have : subtreeWraps e rest = true := by
                rw [subtreeWraps_iff]
                exact ⟨x, hx, hxe⟩
              simp [this] at hsw
            · exact hex
    · rw [if_neg h1]
      have hspec := ihrest hwfrest
      cases htr : trave t rest with
      | dup n =>
        rw [htr] at hspec
        simp only [TraveSpec] at hspec ⊢
        exact ⟨hspec.1, by
          simp only [allPairs, List.mem_cons, List.mem_append]
          exact Or.inr (Or.inr hspec.2)⟩
      | ancestor p =>
        rw [htr] at hspec
        simp only [TraveSpec] at hspec ⊢
        obtain ⟨hpmem, hptp, hpmax⟩ := hspec
        refine ⟨by
          simp only [allPairs, List.mem_cons, List.mem_append]
          exact Or.inr (Or.inr hpmem), hptp, ?_⟩
        intro x hx hmx
        simp only [allErrs, List.mem_cons, List.mem_append] at hx
        rcases hx with hx | hx | hx
        · subst hx
          exact absurd hmx h1
        · exfalso
          exact h1 (errIs_trans hmx (hwrap x hx))
        · exact hpmax x hx hmx
      | nohit =>
        rw [htr] at hspec
        simp only [TraveSpec] at hspec ⊢
        intro x hx
        simp only [allErrs, List.mem_cons, List.mem_append] at hx
        rcases hx with hx | hx | hx
        · subst hx
          cases hv : errIs t x
          · rfl
          · exact absurd hv h1
        · cases hv : errIs t x
          · rfl
          · exact absurd (errIs_trans hv (hwrap x hx)) h1
        · exact hspec x hx

/-! ### Claim C1 -/

/-- C1: for every error hierarchy satisfying the registration invariant
(invariant I1, formalised as `WF`: children strictly wrap their parents
and nothing in a later sibling subtree wraps an earlier sibling) and every
runtime error value, `findHandler` reports no match exactly when no
registered identity matches, and otherwise returns the handler of the most
specific registered node: a matching registered node whose identity is
wrapped by every registered identity the error matches. -/
theorem C1_findHandler_most_specific {α : Type}
    (tree : List (ErrorNode α)) (err : Err) (hwf : WF tree = true) :
    (findHandler err tree = none ↔
      ∀ e ∈ allErrs tree, errIs err e = false) ∧
    (∀ h : α, findHandler err tree = some h →
      ∃ p ∈ allPairs tree, errIs err p.1 = true ∧ p.2 = h ∧
        ∀ e ∈ allErrs tree, errIs err e = true → errIs p.1 e = true) := by
  have hspec := trave_spec err tree hwf
  unfold findHandler findPosition
  cases htr : trave err tree with
  | dup n =>
    rw [htr] at hspec
    simp only [TraveSpec] at hspec
    obtain ⟨hne, hmem⟩ := hspec
    constructor
    · constructor
      · intro h
        simp at h
      · intro hnone
        exfalso
        have := hnone n.err (mem_allErrs_of_mem_allPairs hmem)
        rw [hne] at this
        simp [errIs_refl] at this
    · intro h hh
      simp only [Option.some.injEq] at hh
      refine ⟨(n.err, n.handler), hmem, ?_, hh, ?_⟩
      · rw [hne]
        exact errIs_refl err
      · intro x _ hmx
        rw [hne]
        exact hmx
  | ancestor p =>
    rw [htr] at hspec
    simp only [TraveSpec] at hspec
    obtain ⟨hmem, hm, hmax⟩ := hspec
    constructor
    · constructor
      · intro h
        simp at h
      · intro hnone
        exfalso
        have := hnone p.err (mem_allErrs_of_mem_allPairs hmem)
        simp [hm] at this
    · intro h hh
      simp only [Option.some.injEq] at hh
      exact ⟨(p.err, p.handler), hmem, hm, hh, hmax⟩
  | nohit =>
    rw [htr] at hspec
    simp only [TraveSpec] at hspec
    constructor
    · simp only [true_iff]
      exact hspec
    · intro h hh
      simp at hh

/-- The registration calls of the spec's chain scenario:
Base `[0]` ← Specific `[1,0]` ← MoreSpecific `[2,1,0]`,
with handlers 1, 2, 3. -/
def chainCalls : List (Option Nat × List (Option Err)) :=
  [(some 1, [some [0]]), (some 2, [some [1, 0]]),
   (some 3, [some [2, 1, 0]])]

/-- The forest those calls build. -/
def chainForest : List (ErrorNode Nat) :=
  applyCalls chainCalls []

theorem chainForest_eq :
    chainForest =
      [.mk [0] 1 none [.mk [1, 0] 2 (some [0])
        [.mk [2, 1, 0] 3 (some [1, 0]) []]]] := by
  simp [chainForest, chainCalls, applyCalls, Use, useList, useOne,
    traveAttach, findChildren, findChildrenLoop, removeRoots, errIs,
    ErrorNode.err]

theorem chainForest_WF : WF chainForest = true := by
  rw [chainForest_eq]
  simp [WF, levelOKb, nodesOK, subtreeWraps, errIs, ErrorNode.err]

theorem C1_findHandler_most_specific_witness :
    WF chainForest = true ∧
    findHandler [9, 2, 1, 0] chainForest = some 3 ∧
    findHandler [9, 1, 0] chainForest = some 2 ∧
    findHandler [7] chainForest = none ∧
    ((findHandler [7] chainForest = none ↔
        ∀ e ∈ allErrs chainForest, errIs [7] e = false) ∧
      (∀ h : Nat, findHandler [7] chainForest = some h →
        ∃ p ∈ allPairs chainForest, errIs [7] p.1 = true ∧ p.2 = h ∧
          ∀ e ∈ allErrs chainForest, errIs [7] e = true →
            errIs p.1 e = true)) :=
  ⟨chainForest_WF,
   by rw [chainForest_eq]
      simp [findHandler, findPosition, trave, errIs, ErrorNode.handler],
   by rw [chainForest_eq]
      simp [findHandler, findPosition, trave, errIs, ErrorNode.handler],
   by rw [chainForest_eq]
      simp [findHandler, findPosition, trave, errIs],
   C1_findHandler_most_specific chainForest [7] chainForest_WF⟩

/-! ### Claim C7 -/

/-- C7: a `Use` call with several identities is the sequential composition
of single-identity calls in argument order, stopping (with the state kept)
at the first failure; a nil handler fails the whole call before any
registration; a nil identity fails at its own iteration. -/
theorem C7_use_sequential {α : Type} :
    (∀ (h : α) (x : Option Err) (xs : List (Option Err))
        (tree : List (ErrorNode α)),
      Use (some h) (x :: xs) tree =
        match Use (some h) [x] tree with
        | (t2, none) => Use (some h) xs t2
        | (t2, some er) => (t2, some er)) ∧
    (∀ (errs : List (Option Err)) (tree : List (ErrorNode α)),
      Use (none : Option α) errs tree = (tree, some .nilHandler)) ∧
    (∀ (h : α) (xs : List (Option Err)) (tree : List (ErrorNode α)),
      Use (some h) ((none : Option Err) :: xs) tree =
        (tree, some .nilError)) := by
  refine ⟨?_, fun errs tree => rfl, fun h xs tree => rfl⟩
  intro h x xs tree
  cases x with
  | none => rfl
  | some e =>
    show useList h (some e :: xs) tree = _
    rcases huo : useOne h e tree with ⟨t2, er⟩
    cases er with
    | none => simp [useList, Use, huo]
    | some er => simp [useList, Use, huo]

/-! ### Middleware composition model for C9/C10 -/

/-- Observable events of an instrumented middleware stack. -/
inductive MwEvent : Type where
  | pre (i : Nat) : MwEvent
  | post (i : Nat) : MwEvent
  | term : MwEvent
deriving DecidableEq, Repr

/-- A context that records the execution trace. -/
abbrev TraceCtx := List MwEvent

/-- A generic instrumented middleware: record `pre i`, run the next
handler, record `post i` (the shape of the middlewares in the repository
tests). -/
def labelledMw (i : Nat) : ErrorMiddleware TraceCtx :=
  fun next => fun err ctx => next err (ctx ++ [.pre i]) ++ [.post i]

/-- A terminal handler that records its (single) execution. -/
def termHandler : ErrorHandler TraceCtx :=
  fun _ ctx => ctx ++ [.term]

/-! ### Claim C9 -/

/-- C9: `MiddlewareChain (m1, …, mn)` applied to a terminal handler is the
onion composition `m1 (m2 (… mn handler))`; invoking the composition of
instrumented middlewares runs the pre-logic in order `m1, …, mn`, the
terminal handler exactly once, then the post-logic in order `mn, …, m1`. -/
theorem C9_middleware_chain_onion :
    (∀ (C : Type) (ms : List (ErrorMiddleware C)) (h : ErrorHandler C),
      MiddlewareChain ms h = onionApply ms h) ∧
    (∀ (labels : List Nat) (err : Err) (ctx : TraceCtx),
      MiddlewareChain (labels.map labelledMw) termHandler err ctx =
        ctx ++ labels.map MwEvent.pre ++ [MwEvent.term] ++
          (labels.reverse.map MwEvent.post)) := by
  have hchain : ∀ (C : Type) (ms : List (ErrorMiddleware C))
      (h : ErrorHandler C), MiddlewareChain ms h = onionApply ms h := by
    intro C ms
    induction ms with
    | nil => intro h; rfl
    | cons m ms ih =>
      intro h
      show (List.reverse (m :: ms)).foldl (fun acc f => f acc) h = _
      rw [List.reverse_cons, List.foldl_append]
      simp only [List.foldl_cons, List.foldl_nil]
      have hrw : List.foldl (fun acc f => f acc) h (List.reverse ms) =
          MiddlewareChain ms h := rfl
      rw [hrw, ih]
      rfl
  refine ⟨hchain, ?_⟩
  intro labels
  induction labels with
  | nil =>
    intro err ctx
    simp [MiddlewareChain, termHandler]
  | cons l ls ih =>
    intro err ctx
    rw [hchain] at ih ⊢
    simp only [List.map_cons, onionApply, labelledMw]
    rw [ih]
    simp [List.append_assoc]

/-! ### Claim C10 -/

/-- C10: `MiddlewareChain` of an empty middleware list is the identity on
handlers, and `UseGlobal()` with no arguments installs a global middleware
that wraps nothing. -/
theorem C10_middleware_chain_empty :
    (∀ (C : Type) (h : ErrorHandler C),
      MiddlewareChain ([] : List (ErrorMiddleware C)) h = h) ∧
    (∀ (C : Type), ∃ g : ErrorMiddleware C,
      UseGlobal ([] : List (ErrorMiddleware C)) = some g ∧
        ∀ (h : ErrorHandler C) (err : Err) (ctx : C),
          g h err ctx = h err ctx) :=
  ⟨fun _ _ => rfl,
   fun C => ⟨MiddlewareChain [], rfl, fun _ _ _ => rfl⟩⟩

/-! ### Claim C5 (code bug) -/

/-- C5 evaluated at the failing input: at process start (no `UseGlobal`
call) the global middleware is the nil function, so dispatching a recorded
error dereferences nil and panics (`none`) instead of running the fallback
— contradicting the claim, the package doc comment of `ErrbinMiddleware`,
and the repository test `Test UseGlobal without middlewares`. With the
identity middleware installed (the default the spec claims), the same
dispatch runs the fallback. -/
theorem C5_dispatch_default_panics :
    (globalMiddlewaresDefault : Option (ErrorMiddleware RespCtx)) = none ∧
    ErrbinMiddleware globalMiddlewaresDefault (some defaultFallback)
      [] [[0]] ([] : RespCtx) = none ∧
    ErrbinMiddleware (UseGlobal []) (some defaultFallback)
      [] [[0]] ([] : RespCtx) = some [(500, [0])] :=
  ⟨rfl, rfl, by
    simp [ErrbinMiddleware, UseGlobal, MiddlewareChain, findHandler,
      findPosition, trave, defaultFallback]⟩

/-! ### Claim C6 (code bug) -/

/-- C6 evaluated at the failing input: `Fallback(nil)` overwrites the
previously installed fallback with nil (it is a plain assignment), so a
subsequent dispatch of an unregistered error invokes a nil handler and
panics (`none`) instead of the previous fallback — contradicting the claim
and the repository test `Test Fallback with nil handler`. -/
theorem C6_fallback_nil_not_noop :
    Fallback none (some defaultFallback) = none ∧
    ErrbinMiddleware (UseGlobal []) (Fallback none (some defaultFallback))
      [] [[0]] ([] : RespCtx) = none ∧
    ErrbinMiddleware (UseGlobal []) (some defaultFallback)
      [] [[0]] ([] : RespCtx) = some [(500, [0])] :=
  ⟨rfl, by
    simp [ErrbinMiddleware, Fallback, findHandler, findPosition, trave],
   by
    simp [ErrbinMiddleware, UseGlobal, MiddlewareChain, findHandler,
      findPosition, trave, defaultFallback]⟩

/-! ### Duplicate registration (C4) -/

theorem attach_nohit_top {α : Type} (t : Err) (h : α) :
    ∀ ns : List (ErrorNode α), traveAttach t h ns = .nohit →
      ∀ n ∈ ns, errIs t n.err = false := by
  intro ns
  induction ns with
  | nil => simp
  | cons n rest ih =>
    cases n with
    | mk e hd pa cs =>
      intro hat m hm
      rw [traveAttach] at hat
      by_cases h1 : errIs t e = true
      · rw [if_pos h1] at hat
        by_cases h2 : errIs e t = true
        · rw [if_pos h2] at hat
          cases hat
        · rw [if_neg h2] at hat
          cases htc : traveAttach t h cs <;> rw [htc] at hat <;> cases hat
      · rw [if_neg h1] at hat
        rcases List.mem_cons.mp hm with hm | hm
        · subst hm
          simp only [ErrorNode.err]
          cases hv : errIs t e
          · rfl
          · exact absurd hv h1
        · cases htr : traveAttach t h rest <;> rw [htr] at hat <;>
            try cases hat
          exact ih htr m hm

theorem attach_nohit_of_top {α : Type} (t : Err) (h : α) :
    ∀ ns : List (ErrorNode α),
      (∀ n ∈ ns, errIs t n.err = false) → traveAttach t h ns = .nohit := by
  intro ns
  induction ns with
  | nil => simp [traveAttach]
  | cons n rest ih =>
    cases n with
    | mk e hd pa cs =>
      intro hall
      have h1 : errIs t e = false := by
        have := hall _ (List.mem_cons_self _ _)
        simpa [ErrorNode.err] using this
      rw [traveAttach, if_neg (by simp [h1]),
        ih (fun m hm => hall m (List.mem_cons_of_mem _ hm))]

theorem attach_append_of_nohit {α : Type} (t : Err) (h : α) :
    ∀ (xs ys : List (ErrorNode α)), traveAttach t h xs = .nohit →
      traveAttach t h (xs ++ ys) =
        match traveAttach t h ys with
        | .dup => .dup
        | .attached ys2 => .attached (xs ++ ys2)
        | .nohit => .nohit := by
  intro xs
  induction xs with
  | nil =>
    intro ys _
    simp only [List.nil_append]
    cases traveAttach t h ys <;> rfl
  | cons n rest ih =>
    cases n with
    | mk e hd pa cs =>
      intro ys hxs
      have h1 : errIs t e = false := by
        have := attach_nohit_top t h _ hxs _ (List.mem_cons_self _ _)
        simpa [ErrorNode.err] using this
      have hrest : traveAttach t h rest = .nohit := by
        rw [traveAttach, if_neg (by simp [h1])] at hxs
        cases htr : traveAttach t h rest <;> rw [htr] at hxs <;>
          first
          | rfl
          | cases hxs
      rw [List.cons_append, traveAttach, if_neg (by simp [h1]),
        ih ys hrest]
      cases traveAttach t h ys <;> rfl

theorem attach_then_dup {α : Type} (t : Err) (h h2 : α) :
    ∀ (ns ns2 : List (ErrorNode α)), traveAttach t h ns = .attached ns2 →
      traveAttach t h2 ns2 = .dup := by
  intro ns
  induction ns using forest_induction with
  | hnil =>
    intro ns2 hat
    rw [traveAttach] at hat
    cases hat
  | hcons e hd pa cs rest ihcs ihrest =>
    intro ns2 hat
    rw [traveAttach] at hat
    by_cases h1 : errIs t e = true
    · rw [if_pos h1] at hat
      by_cases hx : errIs e t = true
      · rw [if_pos hx] at hat
        cases hat
      · rw [if_neg hx] at hat
        cases htc : traveAttach t h cs with
        | dup =>
          rw [htc] at hat
          cases hat
        | attached cs2 =>
          rw [htc] at hat
          cases hat
          rw [traveAttach, if_pos (by simp [h1]), if_neg hx,
            ihcs cs2 htc]
        | nohit =>
          rw [htc] at hat
          cases hat
          have hnh : traveAttach t h2 cs = .nohit :=
            attach_nohit_of_top t h2 cs (attach_nohit_top t h cs htc)
          rw [traveAttach, if_pos (by simp [h1]), if_neg hx,
            attach_append_of_nohit t h2 cs _ hnh]
          rw [traveAttach]
          rw [if_pos (by simp [errIs_refl]), if_pos (by simp [errIs_refl])]
    · rw [if_neg h1] at hat
      cases htr : traveAttach t h rest with
      | dup =>
        rw [htr] at hat
        cases hat
      | attached rest2 =>
        rw [htr] at hat
        cases hat
        rw [traveAttach, if_neg (by simp [h1]), ihrest rest2 htr]
      | nohit =>
        rw [htr] at hat
        cases hat

theorem attach_dup_of_mem {α : Type} (t : Err) (h : α) :
    ∀ ns : List (ErrorNode α), WF ns = true → t ∈ allErrs ns →
      traveAttach t h ns = .dup := by
  intro ns
  induction ns using forest_induction with
  | hnil => simp [allErrs]
  | hcons e hd pa cs rest ihcs ihrest =>
    intro hwf hmem
    obtain ⟨hsw, hedges, hwfcs, hwfrest⟩ := WF_cons.mp hwf
    have hnOK : nodesOK (ErrorNode.mk e hd pa cs :: rest) = true := by
      simp only [WF, Bool.and_eq_true] at hwf
      exact hwf.2
    simp only [allErrs, List.mem_cons, List.mem_append] at hmem
    rcases hmem with hmem | hmem | hmem
    · subst hmem
      rw [traveAttach, if_pos (by simp [errIs_refl]),
        if_pos (by simp [errIs_refl])]
    · have h1 : errIs t e = true := allErrs_wrap hnOK t hmem
      by_cases h2 : errIs e t = true
      · rw [traveAttach, if_pos (by simp [h1]), if_pos (by simp [h2])]
      · rw [traveAttach, if_pos (by simp [h1]), if_neg h2,
          ihcs hwfcs hmem]
    · by_cases h1 : errIs t e = true
      · by_cases h2 : errIs e t = true
        · rw [traveAttach, if_pos (by simp [h1]), if_pos (by simp [h2])]
        · exfalso
          have : subtreeWraps e rest = true := by
            rw [subtreeWraps_iff]
            exact ⟨t, hmem, h1⟩
          simp [this] at hsw
      · rw [traveAttach, if_neg h1, ihrest hwfrest hmem]

theorem removeRoots_sublist {α : Type} :
    ∀ (idxs : List Nat) (tree : List (ErrorNode α)),
      List.Sublist (removeRoots idxs tree) tree := by
  intro idxs
  induction idxs with
  | nil =>
    intro tree
    simp [removeRoots]
  | cons i is ih =>
    intro tree
    show List.Sublist (removeRoots is (tree.eraseIdx i)) tree
    exact (ih (tree.eraseIdx i)).trans (List.eraseIdx_sublist tree i)

theorem use_single {α : Type} (h : α) (e : Err)
    (tree : List (ErrorNode α)) :
    Use (some h) [some e] tree = useOne h e tree := by
  show useList h [some e] tree = _
  rcases huo : useOne h e tree with ⟨t2, er⟩
  cases er <;> simp [useList, huo]

/-! ### Claim C4 -/

/-- C4: registering an identity already present in the forest (some node
`N` with `matches(identity, N.identity)` and `matches(N.identity,
identity)`) fails with `DuplicateRegistration` and leaves the forest
unchanged; and after any successful single registration, registering the
same identity again immediately yields `DuplicateRegistration` with the
forest unchanged. -/
theorem C4_duplicate_registration {α : Type} :
    (∀ (tree : List (ErrorNode α)) (h : α) (e : Err),
      WF tree = true →
      (∃ x ∈ allErrs tree, errIs e x = true ∧ errIs x e = true) →
      Use (some h) [some e] tree = (tree, some .duplicate)) ∧
    (∀ (tree t2 : List (ErrorNode α)) (h h2 : α) (e : Err),
      Use (some h) [some e] tree = (t2, none) →
      Use (some h2) [some e] t2 = (t2, some .duplicate)) := by
  constructor
  · intro tree h e hwf hex
    rcases hex with ⟨x, hx, hex, hxe⟩
    have : e = x := errIs_antisymm hex hxe
    subst this
    rw [use_single, useOne, attach_dup_of_mem e h tree hwf hx]
  · intro tree t2 h h2 e huse
    rw [use_single] at huse
    rw [use_single]
    rw [useOne] at huse
    cases hat : traveAttach e h tree with
    | dup =>
      rw [hat] at huse
      cases huse
    | attached t3 =>
      rw [hat] at huse
      cases huse
      rw [useOne, attach_then_dup e h h2 tree t2 hat]
    | nohit =>
      rw [hat] at huse
      have htop := attach_nohit_top e h tree hat
      by_cases hlen : 0 < (findChildren e tree).2.length
      · rw [if_pos hlen] at huse
        cases huse
        rw [useOne]
        have hkeep : traveAttach e h2
            (removeRoots (findChildren e tree).1 tree) = .nohit := by
          apply attach_nohit_of_top
          intro n hn
          exact htop n ((removeRoots_sublist _ tree).subset hn)
        rw [attach_append_of_nohit e h2 _ _ hkeep]
        rw [traveAttach]
        rw [if_pos (by simp [errIs_refl]), if_pos (by simp [errIs_refl])]
      · rw [if_neg hlen] at huse
        cases huse
        rw [useOne]
        have hkeep : traveAttach e h2 tree = .nohit :=
          attach_nohit_of_top e h2 tree htop
        rw [attach_append_of_nohit e h2 _ _ hkeep]
        rw [traveAttach]
        rw [if_pos (by simp [errIs_refl]), if_pos (by simp [errIs_refl])]

theorem C4_duplicate_registration_witness :
    Use (some 9) [some [1, 0]] chainForest =
      (chainForest, some RegError.duplicate) ∧
    Use (some 2) [some [7]] [ErrorNode.mk [7] 1 none []] =
      ([ErrorNode.mk [7] 1 none []], some RegError.duplicate) :=
  ⟨C4_duplicate_registration.1 chainForest 9 [1, 0] chainForest_WF
    ⟨[1, 0], by
      rw [chainForest_eq]
      simp [allErrs], by
      simp [errIs], by
      simp [errIs]⟩,
   C4_duplicate_registration.2 [] [ErrorNode.mk [7] 1 none []] 1 2 [7]
    (by
      simp [Use, useList, useOne, traveAttach, findChildren,
        findChildrenLoop, errIs])⟩

/-! ### Characterising `findChildren` / `removeRoots` (C3) -/

theorem fcl_congr {α : Type} (e : Err) :
    ∀ (k : Nat) (t1 t2 : List (ErrorNode α)), t1.take k = t2.take k →
      findChildrenLoop e t1 k = findChildrenLoop e t2 k := by
  intro k
  induction k with
  | zero =>
    intro t1 t2 _
    rfl
  | succ k ih =>
    intro t1 t2 htake
    have hk : t1.take k = t2.take k := by
      have h1 : (t1.take (k + 1)).take k = (t2.take (k + 1)).take k := by
        rw [htake]
      rwa [List.take_take, List.take_take,
        Nat.min_eq_left (Nat.le_succ k)] at h1
    have hg : t1[k]? = t2[k]? := by
      have h1 : (t1.take (k + 1))[k]? = (t2.take (k + 1))[k]? := by
        rw [htake]
      rwa [List.getElem?_take, List.getElem?_take,
        if_pos (Nat.lt_succ_self k), if_pos (Nat.lt_succ_self k)] at h1
    rw [findChildrenLoop, findChildrenLoop, hg, ih t1 t2 hk]

theorem fcl_children {α : Type} (e : Err) (tree : List (ErrorNode α)) :
    ∀ k, k ≤ tree.length →
      (findChildrenLoop e tree k).2 =
        ((tree.take k).filter (fun r => errIs r.err e)).reverse := by
  intro k
  induction k with
  | zero =>
    intro _
    simp [findChildrenLoop]
  | succ k ih =>
    intro hle
    have hlt : k < tree.length := Nat.lt_of_succ_le hle
    have hget : tree[k]? = some tree[k] := List.getElem?_eq_getElem hlt
    rw [findChildrenLoop]
    rw [List.take_succ, hget, Option.toList_some, List.filter_append,
      List.reverse_append]
    split
    · rename_i root heq
      injection heq with heq
      subst heq
      by_cases hq : errIs tree[k].err e = true
      · rw [if_pos hq]
        simp only [List.filter_cons, hq, if_pos, List.filter_nil,
          List.reverse_cons, List.reverse_nil, List.nil_append,
          List.singleton_append]
        rw [ih (Nat.le_of_lt hlt)]
      · rw [if_neg hq]
        simp only [List.filter_cons, hq, List.filter_nil,
          List.reverse_nil, List.nil_append, Bool.false_eq_true,
          if_false, List.append_nil]
        exact ih (Nat.le_of_lt hlt)
    · rename_i heq
      simp at heq

theorem fcl_remove {α : Type} (e : Err) :
    ∀ (k : Nat) (tree : List (ErrorNode α)), k ≤ tree.length →
      removeRoots (findChildrenLoop e tree k).1 tree =
        (tree.take k).filter (fun r => !errIs r.err e) ++ tree.drop k := by
  intro k
  induction k with
  | zero =>
    intro tree _
    simp [findChildrenLoop, removeRoots]
  | succ k ih =>
    intro tree hle
    have hlt : k < tree.length := Nat.lt_of_succ_le hle
    have hget : tree[k]? = some tree[k] := List.getElem?_eq_getElem hlt
    have hlentk : (tree.take k).length = k := by
      simp [List.length_take, Nat.min_eq_left (Nat.le_of_lt hlt)]
    have herase : tree.eraseIdx k = tree.take k ++ tree.drop (k + 1) :=
      List.eraseIdx_eq_take_drop_succ tree k
    rw [findChildrenLoop]
    split
    · rename_i root heq
      rw [hget] at heq
      injection heq with heq
      subst heq
      by_cases hq : errIs tree[k].err e = true
      · rw [if_pos hq]
        show removeRoots (k :: (findChildrenLoop e tree k).1) tree = _
        have hstep :
            removeRoots (k :: (findChildrenLoop e tree k).1) tree =
              removeRoots (findChildrenLoop e tree k).1
                (tree.eraseIdx k) := rfl
        rw [hstep]
        have htake : tree.take k = (tree.eraseIdx k).take k := by
          rw [herase, List.take_left' hlentk]
        rw [fcl_congr e k tree (tree.eraseIdx k) htake]
        have hlen2 : k ≤ (tree.eraseIdx k).length := by
          rw [herase, List.length_append, hlentk]
          have := List.length_take k tree
          omega
        rw [ih (tree.eraseIdx k) hlen2]
        rw [herase, List.take_left' hlentk, List.drop_left' hlentk]
        rw [List.take_succ, hget, Option.toList_some, List.filter_append]
        simp only [List.filter_cons, hq, List.filter_nil, Bool.not_true,
          Bool.false_eq_true, if_false, List.append_nil]
      · rw [if_neg hq]
        rw [ih tree (Nat.le_of_lt hlt)]
        rw [List.take_succ, hget, Option.toList_some, List.filter_append]
        have hdrop : tree.drop k = tree[k] :: tree.drop (k + 1) :=
          List.drop_eq_getElem_cons hlt
        rw [hdrop]
        simp only [List.filter_cons, hq, Bool.not_false, if_pos,
          List.filter_nil]
        simp [List.append_assoc]
    · rename_i heq
      rw [hget] at heq
      cases heq

theorem findChildren_spec {α : Type} (e : Err)
    (tree : List (ErrorNode α)) :
    (findChildren e tree).2 =
        (tree.filter (fun r => errIs r.err e)).reverse ∧
      removeRoots (findChildren e tree).1 tree =
        tree.filter (fun r => !errIs r.err e) := by
  constructor
  · rw [findChildren, fcl_children e tree tree.length (Nat.le_refl _),
      List.take_length]
  · rw [findChildren, fcl_remove e tree.length tree (Nat.le_refl _),
      List.take_length, List.drop_length, List.append_nil]

/-! ### Claim C3 -/

/-- C3 amended: when a newly registered identity matches no existing node
but is wrapped by some roots, registration detaches exactly those roots
(the remaining roots keep their order), creates a new node whose children
are exactly the detached roots in *reverse* root order with every field —
including each child's parent pointer — left unchanged, and appends the
new node as a root (its own parent pointer nil). -/
theorem C3_new_ancestor_promotion {α : Type}
    (tree : List (ErrorNode α)) (h : α) (e : Err)
    (hno : traveAttach e h tree = .nohit)
    (hsome : tree.filter (fun r => errIs r.err e) ≠ []) :
    useOne h e tree =
      (tree.filter (fun r => !errIs r.err e) ++
        [.mk e h none ((tree.filter (fun r => errIs r.err e)).reverse)],
       none) := by
  obtain ⟨hch, hrm⟩ := findChildren_spec e tree
  rw [useOne, hno]
  have hpos : 0 < (findChildren e tree).2.length := by
    rw [hch, List.length_reverse]
    exact List.length_pos.mpr hsome
  rw [if_pos hpos, hrm, hch]

/-- Two unrelated roots, both wrapping the not-yet-registered `[5]`. -/
def demoRoots : List (ErrorNode Nat) :=
  [.mk [3, 5] 1 none [], .mk [4, 5] 2 none []]

theorem C3_new_ancestor_promotion_witness :
    useOne 3 [5] demoRoots =
      (demoRoots.filter (fun r => !errIs r.err [5]) ++
        [.mk [5] 3 none
          ((demoRoots.filter (fun r => errIs r.err [5])).reverse)],
       none) :=
  C3_new_ancestor_promotion demoRoots 3 [5]
    (by simp [demoRoots, traveAttach, errIs, ErrorNode.err])
    (by simp [demoRoots, errIs, ErrorNode.err])

/-- C3 counterexample: registering `[5]` over roots `[3,5]`, `[4,5]`
produces a new root whose children are `[[4,5], [3,5]]` — the *reverse* of
root order, not root order as claimed — and whose children's parent
pointers are still nil, not updated to the new node. -/
theorem C3_counterexample :
    (useOne 3 [5] demoRoots).1.map
        (fun n => (n.err, n.parent, n.children.map ErrorNode.err,
          n.children.map ErrorNode.parent)) =
      [([5], none, [[4, 5], [3, 5]], [none, none])] ∧
    ([[4, 5], [3, 5]] : List Err) ≠ [[3, 5], [4, 5]] ∧
    (none : Option Err) ≠ some [5] := by
  refine ⟨?_, by decide, by decide⟩
  simp [demoRoots, useOne, traveAttach, findChildren, findChildrenLoop,
    removeRoots, errIs, ErrorNode.err, ErrorNode.parent,
    ErrorNode.children]

/-! ### Preservation of the invariant by registration (C2) -/

theorem all_err_congr {α : Type} (f : Err → Bool)
    (ns : List (ErrorNode α)) :
    ns.all (fun m => f m.err) = (ns.map ErrorNode.err).all f := by
  induction ns with
  | nil => rfl
  | cons n rest ih => simp [List.all_cons, ih]

theorem rootsUnrel_congr {α : Type} :
    ∀ (ns ns2 : List (ErrorNode α)),
      ns2.map ErrorNode.err = ns.map ErrorNode.err →
      rootsUnrel ns2 = rootsUnrel ns := by
  intro ns
  induction ns with
  | nil =>
    intro ns2 hmap
    simp only [List.map_nil] at hmap
    rw [List.map_eq_nil_iff] at hmap
    rw [hmap]
  | cons n rest ih =>
    intro ns2 hmap
    cases ns2 with
    | nil => simp at hmap
    | cons n2 rest2 =>
      simp only [List.map_cons, List.cons.injEq] at hmap
      obtain ⟨herr, hmap⟩ := hmap
      show (rest2.all _ && rootsUnrel rest2) =
        (rest.all _ && rootsUnrel rest)
      rw [ih rest2 hmap,
        all_err_congr (fun x => !errIs x n2.err && !errIs n2.err x) rest2,
        all_err_congr (fun x => !errIs x n.err && !errIs n.err x) rest,
        hmap, herr]

theorem allErrs_singleton {α : Type} (e : Err) (h : α) (pa : Option Err) :
    allErrs [ErrorNode.mk e h pa []] = [e] := by
  simp [allErrs]

theorem levelOKb_singleton {α : Type} (n : ErrorNode α) :
    levelOKb [n] = true := by
  cases n with
  | mk e h pa cs => simp [levelOKb, subtreeWraps]

theorem nodesOK_leaf {α : Type} (e : Err) (h : α) (pa : Option Err) :
    nodesOK [ErrorNode.mk e h pa []] = true := by
  simp [nodesOK, levelOKb]

theorem subtreeWraps_leaf {α : Type} (x e : Err) (h : α)
    (pa : Option Err) :
    subtreeWraps x [ErrorNode.mk e h pa []] = errIs e x := by
  simp [subtreeWraps]

theorem attach_spec {α : Type} (t : Err) (h : α) :
    ∀ (ns ns2 : List (ErrorNode α)), traveAttach t h ns = .attached ns2 →
      ns2.map ErrorNode.err = ns.map ErrorNode.err ∧
      (∀ x, x ∈ allErrs ns2 ↔ x ∈ allErrs ns ∨ x = t) ∧
      (WF ns = true → WF ns2 = true) := by
  intro ns
  induction ns using forest_induction with
  | hnil =>
    intro ns2 hat
    rw [traveAttach] at hat
    cases hat
  | hcons e hd pa cs rest ihcs ihrest =>
    intro ns2 hat
    rw [traveAttach] at hat
    by_cases h1 : errIs t e = true
    · rw [if_pos h1] at hat
      by_cases h2 : errIs e t = true
      · rw [if_pos h2] at hat
        cases hat
      · rw [if_neg h2] at hat
        cases htc : traveAttach t h cs with
        | dup =>
          rw [htc] at hat
          cases hat
        | attached cs2 =>
          rw [htc] at hat
          cases hat
          obtain ⟨hmap, hmem, hwfp⟩ := ihcs cs2 htc
          refine ⟨by simp [ErrorNode.err], ?_, ?_⟩
          · intro x
            simp only [allErrs, List.mem_cons, List.mem_append, hmem x]
            tauto
          · intro hwf
            obtain ⟨hsw, hedges, hwfcs, hwfrest⟩ := WF_cons.mp hwf
            refine WF_cons.mpr ⟨hsw, ?_, hwfp hwfcs, hwfrest⟩
            intro c hc
            have hcm : c.err ∈ cs2.map ErrorNode.err :=
              List.mem_map_of_mem ErrorNode.err hc
            rw [hmap] at hcm
            rcases List.mem_map.mp hcm with ⟨c0, hc0, herr⟩
            have := hedges c0 hc0
            rw [herr] at this
            exact this
        | nohit =>
          rw [htc] at hat
          cases hat
          have hnotop := attach_nohit_top t h cs htc
          have h2f : errIs e t = false := by
            cases hv : errIs e t
            · rfl
            · exact absurd hv h2
          refine ⟨by simp [ErrorNode.err], ?_, ?_⟩
          · intro x
            simp only [allErrs, List.mem_cons, List.mem_append,
              allErrs_append, allErrs_singleton, List.mem_singleton]
            tauto
          · intro hwf
            obtain ⟨hsw, hedges, hwfcs, hwfrest⟩ := WF_cons.mp hwf
            refine WF_cons.mpr ⟨hsw, ?_, ?_, hwfrest⟩
            · intro c hc
              rcases List.mem_append.mp hc with hc | hc
              · exact hedges c hc
              · rw [List.mem_singleton] at hc
                subst hc
                simp only [ErrorNode.err]
                exact ⟨h1, h2f⟩
            · simp only [WF, Bool.and_eq_true] at hwfcs ⊢
              constructor
              · rw [levelOKb_append]
                refine ⟨hwfcs.1, levelOKb_singleton _, ?_⟩
                intro x hx
                rw [subtreeWraps_leaf]
                exact hnotop x hx
              · rw [nodesOK_append]
                simp [hwfcs.2, nodesOK_leaf]
    · rw [if_neg h1] at hat
      have h1f : errIs t e = false := by
        cases hv : errIs t e
        · rfl
        · exact absurd hv h1
      cases htr : traveAttach t h rest with
      | dup =>
        rw [htr] at hat
        cases hat
      | attached rest2 =>
        rw [htr] at hat
        cases hat
        obtain ⟨hmap, hmem, hwfp⟩ := ihrest rest2 htr
        refine ⟨by simp [ErrorNode.err, hmap], ?_, ?_⟩
        · intro x
          simp only [allErrs, List.mem_cons, List.mem_append, hmem x]
          tauto
        · intro hwf
          obtain ⟨hsw, hedges, hwfcs, hwfrest⟩ := WF_cons.mp hwf
          refine WF_cons.mpr ⟨?_, hedges, hwfcs, hwfp hwfrest⟩
          cases hv : subtreeWraps e rest2
          · rfl
          · exfalso
            rw [subtreeWraps_iff] at hv
            rcases hv with ⟨x, hx, hxe⟩
            rcases (hmem x).mp hx with hx | hx
            · have : subtreeWraps e rest = true := by
                rw [subtreeWraps_iff]
                exact ⟨x, hx, hxe⟩
              simp [this] at hsw
            · subst hx
              simp [hxe] at h1f
      | nohit =>
        rw [htr] at hat
        cases hat

theorem mem_err_of_mem {α : Type} {tree : List (ErrorNode α)}
    {n : ErrorNode α} (hn : n ∈ tree) : n.err ∈ allErrs tree :=
  (mem_allErrs_cases tree n.err).mpr ⟨n, hn, Or.inl rfl⟩

theorem allErrs_reverse_mem {α : Type} :
    ∀ (l : List (ErrorNode α)) (x : Err),
      x ∈ allErrs l.reverse ↔ x ∈ allErrs l := by
  intro l
  induction l with
  | nil => simp
  | cons n rest ih =>
    cases n with
    | mk e h pa cs =>
      intro x
      rw [List.reverse_cons, allErrs_append]
      simp only [allErrs, List.mem_append, List.mem_cons, ih,
        List.append_nil, List.not_mem_nil, or_false]
      tauto

theorem unrel_mem_rel {α : Type} :
    ∀ {l : List (ErrorNode α)},
      l.Pairwise (fun a b =>
        errIs a.err b.err = false ∧ errIs b.err a.err = false) →
      ∀ {a b : ErrorNode α}, a ∈ l → b ∈ l →
        errIs a.err b.err = true → a.err = b.err := by
  intro l
  induction l with
  | nil =>
    intro _ a b ha _ _
    cases ha
  | cons n rest ih =>
    intro hpw a b ha hb hrel
    rw [List.pairwise_cons] at hpw
    obtain ⟨hn, hrest⟩ := hpw
    rcases List.mem_cons.mp ha with ha1 | ha1 <;>
      rcases List.mem_cons.mp hb with hb1 | hb1
    · rw [ha1, hb1]
    · rw [ha1] at hrel
      rw [(hn b hb1).1] at hrel
      cases hrel
    · rw [hb1] at hrel
      rw [(hn a ha1).2] at hrel
      cases hrel
    · exact ih hrest ha1 hb1 hrel

theorem cross_root_rel {α : Type} {tree : List (ErrorNode α)}
    (hpw : tree.Pairwise (fun a b =>
      errIs a.err b.err = false ∧ errIs b.err a.err = false))
    (hnOK : nodesOK tree = true)
    {a b : ErrorNode α} (ha : a ∈ tree) (hb : b ∈ tree)
    {x : Err} (hx : x = a.err ∨ x ∈ allErrs a.children)
    (hrel : errIs x b.err = true) : a.err = b.err := by
  rcases hx with hx | hx
  · subst hx
    exact unrel_mem_rel hpw ha hb hrel
  · have hxa : errIs x a.err = true :=
      entries_wrap tree hnOK (a.err, allErrs a.children)
        (mem_entries_self tree a ha) x hx
    rcases errIs_total hrel hxa with hba | hab
    · exact (unrel_mem_rel hpw hb ha hba).symm
    · exact unrel_mem_rel hpw ha hb hab

theorem no_node_match_of_attach_nohit {α : Type} {e : Err} {h : α}
    {tree : List (ErrorNode α)} (hnOK : nodesOK tree = true)
    (hat : traveAttach e h tree = .nohit) :
    ∀ x ∈ allErrs tree, errIs e x = false := by
  intro x hx
  have htop := attach_nohit_top e h tree hat
  rcases (mem_allErrs_cases tree x).mp hx with ⟨n, hn, hcase⟩
  rcases hcase with hcase | hcase
  · subst hcase
    exact htop n hn
  · cases hv : errIs e x
    · rfl
    · exfalso
      have hxn : errIs x n.err = true :=
        entries_wrap tree hnOK (n.err, allErrs n.children)
          (mem_entries_self tree n hn) x hcase
      have hcontra : errIs e n.err = true := errIs_trans hv hxn
      simp [htop n hn] at hcontra

theorem levelOKb_of_unrel {α : Type} :
    ∀ rs : List (ErrorNode α),
      rs.Pairwise (fun a b =>
        errIs a.err b.err = false ∧ errIs b.err a.err = false) →
      nodesOK rs = true → levelOKb rs = true := by
  intro rs
  induction rs with
  | nil => simp [levelOKb]
  | cons r rest ih =>
    intro hpw hnOK
    obtain ⟨hr, hrest⟩ := List.pairwise_cons.mp hpw
    have hnOKrest : nodesOK rest = true := by
      rw [nodesOK_forall] at hnOK ⊢
      intro n hn
      exact hnOK n (List.mem_cons_of_mem _ hn)
    cases r with
    | mk e hd pa cs =>
      rw [levelOKb]
      simp only [Bool.and_eq_true, Bool.not_eq_true']
      refine ⟨?_, ih hrest hnOKrest⟩
      cases hv : subtreeWraps e rest
      · rfl
      · exfalso
        rw [subtreeWraps_iff] at hv
        rcases hv with ⟨x, hx, hxe⟩
        rcases (mem_allErrs_cases rest x).mp hx with ⟨m, hm, hcase⟩
        have hme : m.err = (ErrorNode.mk e hd pa cs).err :=
          cross_root_rel hpw hnOK (List.mem_cons_of_mem _ hm)
            (List.mem_cons_self _ _) hcase
            (by simpa [ErrorNode.err] using hxe)
        have hbad := (hr m hm).2
        rw [hme] at hbad
        simp [errIs_refl] at hbad

theorem promoted_no_wrap {α : Type} {tree : List (ErrorNode α)} {e : Err}
    (hpw : tree.Pairwise (fun a b =>
      errIs a.err b.err = false ∧ errIs b.err a.err = false))
    (hnOK : nodesOK tree = true)
    {k : ErrorNode α} (hkt : k ∈ tree) (hkq : errIs k.err e = false) :
    subtreeWraps k.err
      ((tree.filter (fun r => errIs r.err e)).reverse) = false := by
  cases hv : subtreeWraps k.err
      ((tree.filter (fun r => errIs r.err e)).reverse)
  · rfl
  · exfalso
    rw [subtreeWraps_iff] at hv
    rcases hv with ⟨x, hx, hxk⟩
    rcases (mem_allErrs_cases _ x).mp
      ((allErrs_reverse_mem _ x).mp hx) with ⟨c, hc, hcase⟩
    have hcf := List.mem_filter.mp hc
    have hck : c.err = k.err :=
      cross_root_rel hpw hnOK hcf.1 hkt hcase hxk
    have hq := hcf.2
    rw [hck] at hq
    rw [hq] at hkq
    cases hkq

theorem useOne_WFR {α : Type} (h : α) (e : Err)
    (tree : List (ErrorNode α)) (hwfr : WFR tree = true) :
    WFR (useOne h e tree).1 = true := by
  rw [WFR, Bool.and_eq_true] at hwfr
  obtain ⟨hwf, hru⟩ := hwfr
  have hlvl : levelOKb tree = true := by
    rw [WF, Bool.and_eq_true] at hwf
    exact hwf.1
  have hnOKt : nodesOK tree = true := by
    rw [WF, Bool.and_eq_true] at hwf
    exact hwf.2
  rw [useOne]
  cases hat : traveAttach e h tree with
  | dup =>
    show WFR tree = true
    rw [WFR, hwf, hru]
    rfl
  | attached t2 =>
    show WFR t2 = true
    obtain ⟨hmap, hmem, hwfp⟩ := attach_spec e h tree t2 hat
    rw [WFR, Bool.and_eq_true]
    refine ⟨hwfp hwf, ?_⟩
    rw [rootsUnrel_congr tree t2 hmap]
    exact hru
  | nohit =>
    have hnm : ∀ x ∈ allErrs tree, errIs e x = false :=
      no_node_match_of_attach_nohit hnOKt hat
    obtain ⟨hch, hrm⟩ := findChildren_spec e tree
    have hpw := (rootsUnrel_iff_pairwise tree).mp hru
    by_cases hpos : 0 < (findChildren e tree).2.length
    · rw [if_pos hpos]
      show WFR (removeRoots (findChildren e tree).1 tree ++
        [.mk e h none (findChildren e tree).2]) = true
      rw [hrm, hch]
      have hKmem : ∀ k ∈ tree.filter (fun r => !errIs r.err e),
          k ∈ tree ∧ errIs k.err e = false := by
        intro k hk
        have hmf := List.mem_filter.mp hk
        exact ⟨hmf.1, by simpa using hmf.2⟩
      have hCmem : ∀ c ∈ (tree.filter (fun r => errIs r.err e)).reverse,
          c ∈ tree ∧ errIs c.err e = true := by
        intro c hc
        have hmf := List.mem_filter.mp (List.mem_reverse.mp hc)
        exact ⟨hmf.1, hmf.2⟩
      have hCpw :
          ((tree.filter (fun r => errIs r.err e)).reverse).Pairwise
            (fun a b =>
              errIs a.err b.err = false ∧ errIs b.err a.err = false) := by
        rw [List.pairwise_reverse]
        exact (hpw.filter _).imp (fun hab => ⟨hab.2, hab.1⟩)
      have hCnodes :
          nodesOK
            ((tree.filter (fun r => errIs r.err e)).reverse) = true :=
        nodesOK_reverse (nodesOK_filter _ hnOKt)
      rw [WFR, WF, Bool.and_eq_true, Bool.and_eq_true]
      refine ⟨⟨?_, ?_⟩, ?_⟩
      · rw [levelOKb_append]
        refine ⟨levelOKb_filter _ tree hlvl, levelOKb_singleton _, ?_⟩
        intro k hk
        obtain ⟨hkt, hkq⟩ := hKmem k hk
        rw [subtreeWraps]
        rw [Bool.or_eq_false_iff, Bool.or_eq_false_iff]
        exact ⟨⟨hnm k.err (mem_err_of_mem hkt),
          promoted_no_wrap hpw hnOKt hkt hkq⟩, by rw [subtreeWraps]⟩
      · rw [nodesOK_append]
        rw [Bool.and_eq_true]
        refine ⟨nodesOK_filter _ hnOKt, ?_⟩
        rw [nodesOK]
        simp only [Bool.and_eq_true, List.all_eq_true]
        refine ⟨⟨⟨?_, levelOKb_of_unrel _ hCpw hCnodes⟩, hCnodes⟩,
          by rw [nodesOK]⟩
        intro c hc
        obtain ⟨hct, hcq⟩ := hCmem c hc
        simp [hcq, hnm c.err (mem_err_of_mem hct)]
      · rw [rootsUnrel_iff_pairwise, List.pairwise_append]
        refine ⟨hpw.filter _, List.pairwise_singleton _ _, ?_⟩
        intro a ha b hb
        rw [List.mem_singleton] at hb
        subst hb
        obtain ⟨hat2, haq⟩ := hKmem a ha
        constructor
        · simpa [ErrorNode.err] using haq
        · simpa [ErrorNode.err] using hnm a.err (mem_err_of_mem hat2)
    · rw [if_neg hpos]
      show WFR (tree ++ [.mk e h none []]) = true
      have hqnil : tree.filter (fun r => errIs r.err e) = [] := by
        have hlen := congrArg List.length hch
        rw [List.length_reverse] at hlen
        have : (findChildren e tree).2.length = 0 := by omega
        rw [this] at hlen
        exact List.length_eq_zero.mp hlen.symm
      have hnoq : ∀ r ∈ tree, errIs r.err e = false := by
        intro r hr
        have := List.filter_eq_nil_iff.mp hqnil r hr
        simpa using this
      rw [WFR, WF, Bool.and_eq_true, Bool.and_eq_true]
      refine ⟨⟨?_, ?_⟩, ?_⟩
      · rw [levelOKb_append]
        refine ⟨hlvl, levelOKb_singleton _, ?_⟩
        intro x hx
        rw [subtreeWraps_leaf]
        exact hnm x.err (mem_err_of_mem hx)
      · rw [nodesOK_append]
        rw [Bool.and_eq_true]
        exact ⟨hnOKt, nodesOK_leaf e h none⟩
      · rw [rootsUnrel_iff_pairwise, List.pairwise_append]
        refine ⟨hpw, List.pairwise_singleton _ _, ?_⟩
        intro a ha b hb
        rw [List.mem_singleton] at hb
        subst hb
        constructor
        · simpa [ErrorNode.err] using hnoq a ha
        · simpa [ErrorNode.err] using hnm a.err (mem_err_of_mem ha)

theorem useList_WFR {α : Type} (h : α) :
    ∀ (errs : List (Option Err)) (tree : List (ErrorNode α)),
      WFR tree = true → WFR (useList h errs tree).1 = true := by
  intro errs
  induction errs with
  | nil =>
    intro tree hw
    exact hw
  | cons x rest ih =>
    intro tree hw
    cases x with
    | none => exact hw
    | some e =>
      rcases huo : useOne h e tree with ⟨t2, er⟩
      have ht2 : WFR t2 = true := by
        have hp := useOne_WFR h e tree hw
        rw [huo] at hp
        exact hp
      cases er with
      | none =>
        rw [useList, huo]
        exact ih t2 ht2
      | some er =>
        rw [useList, huo]
        exact ht2

/-! ### Claim C2 -/

/-- C2 amended: every `Use` call preserves the invariant the code actually
maintains — each child's identity strictly wraps its parent's identity (so
whenever B is an ancestor of A, `matches(A.identity, B.identity)` holds),
root identities are pairwise unrelated, and no node inside a later
sibling's subtree wraps an earlier sibling's identity (`WFR`). The claim's
stronger statement — that `matches(A.identity, B.identity)` makes A and B
ancestor/descendant with nothing in between — is false on the code (see
the counterexample): a registered identity can end up the *sibling* of a
node whose identity wraps it, because `Use` only promotes descendants at
the root level. -/
theorem C2_invariant_preserved {α : Type} :
    (∀ (handler : Option α) (errs : List (Option Err))
        (tree : List (ErrorNode α)),
      WFR tree = true → WFR (Use handler errs tree).1 = true) ∧
    (∀ calls : List (Option α × List (Option Err)),
      WFR (applyCalls calls ([] : List (ErrorNode α))) = true) ∧
    (∀ calls : List (Option α × List (Option Err)),
      ∀ p ∈ entries (applyCalls calls ([] : List (ErrorNode α))),
        ∀ d ∈ p.2, errIs d p.1 = true) := by
  have huse : ∀ (handler : Option α) (errs : List (Option Err))
      (tree : List (ErrorNode α)),
      WFR tree = true → WFR (Use handler errs tree).1 = true := by
    intro handler errs tree hw
    cases handler with
    | none => exact hw
    | some h => exact useList_WFR h errs tree hw
  have happly : ∀ (calls : List (Option α × List (Option Err)))
      (tree : List (ErrorNode α)),
      WFR tree = true → WFR (applyCalls calls tree) = true := by
    intro calls
    induction calls with
    | nil =>
      intro tree hw
      exact hw
    | cons c cs ih =>
      intro tree hw
      exact ih _ (huse c.1 c.2 tree hw)
  have hnil : WFR ([] : List (ErrorNode α)) = true := by
    simp [WFR, WF, levelOKb, nodesOK, rootsUnrel]
  refine ⟨huse, fun calls => happly calls [] hnil, ?_⟩
  intro calls
  have hw := happly calls [] hnil
  rw [WFR, WF, Bool.and_eq_true, Bool.and_eq_true] at hw
  exact entries_wrap _ hw.1.2

theorem chainForest_WFR : WFR chainForest = true := by
  rw [chainForest_eq]
  simp [WFR, WF, levelOKb, nodesOK, rootsUnrel, subtreeWraps, errIs,
    ErrorNode.err]

theorem C2_invariant_preserved_witness :
    WFR (Use (some 9) [some [8, 0]] chainForest).1 = true :=
  C2_invariant_preserved.1 (some 9) [some [8, 0]] chainForest
    chainForest_WFR

/-- C2 counterexample: the successful registrations `[0]`, `[2,1,0]`,
`[1,0]` (in this order) build the forest whose entries are listed below:
the `[2,1,0]` node and the `[1,0]` node are siblings under `[0]`, and both
have no descendants.  With A the `[2,1,0]` node and B the `[1,0]` node,
`matches(A.identity, B.identity)` holds, yet B is not a descendant of A
(B's identity is not among A's descendant identities — A has none), and A
is not a descendant of B either, refuting invariant I1 as claimed. -/
theorem C2_counterexample :
    (Use (some 1) [some [0], some [2, 1, 0], some [1, 0]]
        ([] : List (ErrorNode Nat))).2 = none ∧
    errIs [2, 1, 0] [1, 0] = true ∧
    entries (Use (some 1) [some [0], some [2, 1, 0], some [1, 0]]
        ([] : List (ErrorNode Nat))).1 =
      [([0], [[2, 1, 0], [1, 0]]), ([2, 1, 0], []), ([1, 0], [])] := by
  refine ⟨?_, by simp [errIs], ?_⟩ <;>
    simp [Use, useList, useOne, traveAttach, findChildren,
      findChildrenLoop, removeRoots, errIs, entries, allErrs,
      ErrorNode.err]

/-! ### Breadth-first versus depth-first lookup (C8) -/

theorem keys_nodup_unique {β : Type} :
    ∀ (l : List (Err × β)), (l.map Prod.fst).Nodup →
      ∀ {e : Err} {a b : β}, (e, a) ∈ l → (e, b) ∈ l → a = b := by
  intro l
  induction l with
  | nil =>
    intro _ e a b ha _
    cases ha
  | cons p rest ih =>
    intro hnd e a b ha hb
    rw [List.map_cons, List.nodup_cons] at hnd
    rcases List.mem_cons.mp ha with ha | ha <;>
      rcases List.mem_cons.mp hb with hb | hb
    · rw [← ha] at hb
      injection hb with _ h2
      exact h2.symm
    · exfalso
      apply hnd.1
      rw [← ha]
      exact List.mem_map.mpr ⟨(e, b), hb, rfl⟩
    · exfalso
      apply hnd.1
      rw [← hb]
      exact List.mem_map.mpr ⟨(e, a), ha, rfl⟩
    · exact ih hnd.2 ha hb

theorem strictHierarchy_spec {α : Type} {tree : List (ErrorNode α)}
    (h : strictHierarchy tree = true) :
    ∀ p ∈ entries tree, ∀ q ∈ entries tree,
      errIs q.1 p.1 = true → q.1 = p.1 ∨ q.1 ∈ p.2 := by
  intro p hp q hq hrel
  rw [strictHierarchy, List.all_eq_true] at h
  have h2 := h p hp
  rw [List.all_eq_true] at h2
  have h3 := h2 q hq
  simp only [hrel, Bool.not_true, Bool.false_or, Bool.or_eq_true,
    decide_eq_true_eq] at h3
  exact h3

/-- What each outcome of the breadth-first queue loop means: `none` only
when the incoming best was `none` and nothing in the queue's subtrees
matches; `some n` is a matching node dominating every match reachable from
the queue, refining the incoming best, and originating either from the
incoming best or from the queue. -/
def BfsSpec {α : Type} (t : Err) (queue : List (ErrorNode α))
    (best : Option (ErrorNode α)) : Option (ErrorNode α) → Prop
  | none => best = none ∧ ∀ x ∈ allErrs queue, errIs t x = false
  | some n => errIs t n.err = true ∧
      (∀ x ∈ allErrs queue, errIs t x = true → errIs n.err x = true) ∧
      (best = some n ∨ (n.err, n.handler) ∈ allPairs queue) ∧
      (∀ b, best = some b → errIs n.err b.err = true)

theorem bfsLoop_spec {α : Type} (t : Err) (tree0 : List (ErrorNode α))
    (hsi : strictHierarchy tree0 = true) :
    ∀ (N : Nat) (queue : List (ErrorNode α))
      (best : Option (ErrorNode α)),
      sizeL queue ≤ N →
      (allErrs queue).Nodup →
      nodesOK queue = true →
      (∀ p ∈ entries queue, p ∈ entries tree0) →
      (∀ b, best = some b → errIs t b.err = true ∧
        ∀ x ∈ allErrs queue, errIs t x = true → errIs x b.err = true) →
      BfsSpec t queue best (bfsLoop t queue best) := by
  intro N
  induction N with
  | zero =>
    intro queue best hsize _ _ _ hbest
    cases queue with
    | nil =>
      rw [bfsLoop]
      cases best with
      | none => exact ⟨rfl, by simp [allErrs]⟩
      | some b =>
        refine ⟨(hbest b rfl).1, by simp [allErrs], Or.inl rfl, ?_⟩
        intro b2 hb2
        injection hb2 with hb2
        rw [hb2]
        exact errIs_refl _
    | cons q rest =>
      exfalso
      cases q with
      | mk e hd pa cs =>
        rw [sizeL] at hsize
        omega
  | succ N ihN =>
    intro queue best hsize hnd hnOK hsub hbest
    cases queue with
    | nil =>
      rw [bfsLoop]
      cases best with
      | none => exact ⟨rfl, by simp [allErrs]⟩
      | some b =>
        refine ⟨(hbest b rfl).1, by simp [allErrs], Or.inl rfl, ?_⟩
        intro b2 hb2
        injection hb2 with hb2
        rw [hb2]
        exact errIs_refl _
    | cons q rest =>
      cases q with
      | mk e hd pa cs =>
        have hsize2 : sizeL rest + sizeL cs ≤ N := by
          rw [sizeL] at hsize
          omega
        rw [allErrs] at hnd
        rw [List.nodup_cons] at hnd
        obtain ⟨hnotin, hnd2⟩ := hnd
        rw [nodesOK] at hnOK
        simp only [Bool.and_eq_true] at hnOK
        obtain ⟨⟨⟨hedges, hlvlcs⟩, hnodcs⟩, hnodrest⟩ := hnOK
        have hwrapcs : ∀ x ∈ allErrs cs, errIs x e = true := by
          have hok2 : nodesOK (ErrorNode.mk e hd pa cs :: rest) = true := by
            rw [nodesOK]
            simp only [Bool.and_eq_true]
            exact ⟨⟨⟨hedges, hlvlcs⟩, hnodcs⟩, hnodrest⟩
          exact allErrs_wrap hok2
        have hsubcs : ∀ p ∈ entries cs, p ∈ entries tree0 := by
          intro p hp
          apply hsub
          rw [entries]
          exact List.mem_cons_of_mem _ (List.mem_append.mpr (Or.inl hp))
        have hsubrest : ∀ p ∈ entries rest, p ∈ entries tree0 := by
          intro p hp
          apply hsub
          rw [entries]
          exact List.mem_cons_of_mem _ (List.mem_append.mpr (Or.inr hp))
        have hheadentry : (e, allErrs cs) ∈ entries tree0 := by
          apply hsub
          rw [entries]
          exact List.mem_cons_self _ _
        rw [bfsLoop]
        by_cases hm : errIs t e = true
        · rw [if_pos hm]
          have hnd3 : (allErrs (rest ++ cs)).Nodup := by
            rw [allErrs_append]
            exact (List.perm_append_comm.nodup_iff).mpr hnd2
          have hnOK3 : nodesOK (rest ++ cs) = true := by
            rw [nodesOK_append]
            simp [hnodrest, hnodcs]
          have hsub3 : ∀ p ∈ entries (rest ++ cs), p ∈ entries tree0 := by
            intro p hp
            rw [entries_append] at hp
            rcases List.mem_append.mp hp with hp | hp
            · exact hsubrest p hp
            · exact hsubcs p hp
          have hbest3 : ∀ b,
              some (ErrorNode.mk e hd pa cs) = some b →
              errIs t b.err = true ∧
              ∀ x ∈ allErrs (rest ++ cs), errIs t x = true →
                errIs x b.err = true := by
            intro b hb
            injection hb with hb
            rw [← hb]
            refine ⟨by simpa [ErrorNode.err] using hm, ?_⟩
            intro x hx hxm
            rw [allErrs_append] at hx
            simp only [ErrorNode.err]
            rcases List.mem_append.mp hx with hx | hx
            · by_cases hxe : x = e
              · exfalso
                apply hnotin
                rw [← hxe]
                exact List.mem_append.mpr (Or.inr hx)
              · rcases errIs_total hm hxm with hex | hxe2
                · exfalso
                  rcases exists_entry_of_mem_allErrs
                    ((mem_allErrs_cases rest x).mpr
                      ((mem_allErrs_cases rest x).mp hx)) with ⟨dx, hdx⟩
                  rcases strictHierarchy_spec hsi (x, dx)
                      (hsubrest _ hdx) (e, allErrs cs) hheadentry
                      (by simpa using hex) with heq | hmem
                  · exact hxe heq.symm
                  · apply hnotin
                    exact List.mem_append.mpr
                      (Or.inr (entries_desc_sub rest (x, dx) hdx e hmem))
                · exact hxe2
            · exact hwrapcs x hx
          have hres := ihN (rest ++ cs) (some (.mk e hd pa cs))
            (by rw [sizeL_append]; omega) hnd3 hnOK3 hsub3 hbest3
          cases hbl : bfsLoop t (rest ++ cs)
              (some (ErrorNode.mk e hd pa cs)) with
          | none =>
            rw [hbl] at hres
            simp only [BfsSpec] at hres
            cases hres.1
          | some n =>
            rw [hbl] at hres
            simp only [BfsSpec] at hres
            obtain ⟨hn1, hn2, hn3, hn4⟩ := hres
            simp only [BfsSpec]
            have hne : errIs n.err e = true := by
              have := hn4 (.mk e hd pa cs) rfl
              simpa [ErrorNode.err] using this
            refine ⟨hn1, ?_, ?_, ?_⟩
            · intro x hx hxm
              rw [allErrs] at hx
              rcases List.mem_cons.mp hx with hx | hx
              · rw [hx]
                exact hne
              · rcases List.mem_append.mp hx with hx | hx
                · exact hn2 x (by
                    rw [allErrs_append]
                    exact List.mem_append.mpr (Or.inr hx)) hxm
                · exact hn2 x (by
                    rw [allErrs_append]
                    exact List.mem_append.mpr (Or.inl hx)) hxm
            · right
              rcases hn3 with hn3 | hn3
              · injection hn3 with hn3
                rw [← hn3]
                rw [allPairs]
                simp [ErrorNode.err, ErrorNode.handler]
              · rw [allPairs_append] at hn3
                rw [allPairs]
                rcases List.mem_append.mp hn3 with hn3 | hn3
                · exact List.mem_cons_of_mem _
                    (List.mem_append.mpr (Or.inr hn3))
                · exact List.mem_cons_of_mem _
                    (List.mem_append.mpr (Or.inl hn3))
            · intro b hb
              have hb2 := hbest b hb
              have heb : errIs e b.err = true := by
                apply hb2.2 e
                · rw [allErrs]
                  exact List.mem_cons_self _ _
                · exact hm
              exact errIs_trans hne heb
        · rw [if_neg hm]
          have hnomatch_cs : ∀ x ∈ allErrs cs, errIs t x = false := by
            intro x hx
            cases hv : errIs t x
            · rfl
            · exfalso
              exact hm (errIs_trans hv (hwrapcs x hx))
          have hmf : errIs t e = false := by
            cases hv : errIs t e
            · rfl
            · exact absurd hv hm
          have hres := ihN rest best (by omega)
            (List.Nodup.of_append_right hnd2) hnodrest hsubrest
            (by
              intro b hb
              refine ⟨(hbest b hb).1, ?_⟩
              intro x hx hxm
              refine (hbest b hb).2 x ?_ hxm
              rw [allErrs]
              exact List.mem_cons_of_mem _
                (List.mem_append.mpr (Or.inr hx)))
          cases hbl : bfsLoop t rest best with
          | none =>
            rw [hbl] at hres
            simp only [BfsSpec] at hres ⊢
            refine ⟨hres.1, ?_⟩
            intro x hx
            rw [allErrs] at hx
            rcases List.mem_cons.mp hx with hx | hx
            · rw [hx]
              exact hmf
            · rcases List.mem_append.mp hx with hx | hx
              · exact hnomatch_cs x hx
              · exact hres.2 x hx
          | some n =>
            rw [hbl] at hres
            simp only [BfsSpec] at hres ⊢
            obtain ⟨hn1, hn2, hn3, hn4⟩ := hres
            refine ⟨hn1, ?_, ?_, hn4⟩
            · intro x hx hxm
              rw [allErrs] at hx
              rcases List.mem_cons.mp hx with hx | hx
              · rw [hx] at hxm
                rw [hxm] at hmf
                cases hmf
              · rcases List.mem_append.mp hx with hx | hx
                · rw [hnomatch_cs x hx] at hxm
                  cases hxm
                · exact hn2 x hx hxm
            · rcases hn3 with hn3 | hn3
              · exact Or.inl hn3
              · right
                rw [allPairs]
                exact List.mem_cons_of_mem _
                  (List.mem_append.mpr (Or.inr hn3))

/-! ### Claim C8 -/

/-- C8 amended: the breadth-first lookup of `src/unnamed/part_000` and the
depth-first lookup of `finder.go` agree on every forest with pairwise
distinct identities satisfying the per-node invariant `WF` *and* the
strict hierarchy condition (any identity wrapping another belongs to a
strict descendant of the wrapped one — the spec's intended I1).  On
forests merely reachable by registration the strict condition can fail
and the two lookups can return different handlers (see the
counterexample). -/
theorem C8_bfs_dfs_agree {α : Type} (tree : List (ErrorNode α))
    (hnd : (allErrs tree).Nodup) (hwf : WF tree = true)
    (hsi : strictHierarchy tree = true) (err : Err) :
    findHandlerBFS err tree = findHandler err tree := by
  have hnOK : nodesOK tree = true := by
    rw [WF, Bool.and_eq_true] at hwf
    exact hwf.2
  have hbfs := bfsLoop_spec err tree hsi (sizeL tree) tree none
    (Nat.le_refl _) hnd hnOK (fun p hp => hp)
    (by intro b hb; cases hb)
  have hdfs := trave_spec err tree hwf
  rw [findHandlerBFS, findHandler, findPosition]
  cases hbl : bfsLoop err tree none with
  | none =>
    rw [hbl] at hbfs
    simp only [BfsSpec] at hbfs
    cases htr : trave err tree with
    | dup n =>
      rw [htr] at hdfs
      simp only [TraveSpec] at hdfs
      exfalso
      have hmem := mem_allErrs_of_mem_allPairs hdfs.2
      have := hbfs.2 n.err hmem
      rw [hdfs.1] at this
      rw [errIs_refl] at this
      cases this
    | ancestor p =>
      rw [htr] at hdfs
      simp only [TraveSpec] at hdfs
      exfalso
      have hmem := mem_allErrs_of_mem_allPairs hdfs.1
      have := hbfs.2 p.err hmem
      rw [hdfs.2.1] at this
      cases this
    | nohit => rfl
  | some m =>
    rw [hbl] at hbfs
    simp only [BfsSpec] at hbfs
    obtain ⟨hm1, hm2, hm3, _⟩ := hbfs
    have hmp : (m.err, m.handler) ∈ allPairs tree := by
      rcases hm3 with h3 | h3
      · cases h3
      · exact h3
    have hmmem : m.err ∈ allErrs tree := mem_allErrs_of_mem_allPairs hmp
    have hkeys : ((allPairs tree).map Prod.fst).Nodup := by
      rw [← allErrs_eq_map_fst_allPairs]
      exact hnd
    cases htr : trave err tree with
    | dup n =>
      rw [htr] at hdfs
      simp only [TraveSpec] at hdfs
      obtain ⟨hne, hnp⟩ := hdfs
      have hnmem := mem_allErrs_of_mem_allPairs hnp
      have h1 : errIs m.err n.err = true := by
        refine hm2 n.err hnmem ?_
        rw [hne]
        exact errIs_refl _
      have h2 : errIs n.err m.err = true := by
        rw [hne]
        exact hm1
      have heq : m.err = n.err := errIs_antisymm h1 h2
      have hh : m.handler = n.handler := by
        refine keys_nodup_unique (allPairs tree) hkeys hmp ?_
        rw [heq]
        exact hnp
      show some m.handler = some n.handler
      rw [hh]
    | ancestor p =>
      rw [htr] at hdfs
      simp only [TraveSpec] at hdfs
      obtain ⟨hpp, hpm, hpmax⟩ := hdfs
      have hpmem := mem_allErrs_of_mem_allPairs hpp
      have h1 : errIs m.err p.err = true := hm2 p.err hpmem hpm
      have h2 : errIs p.err m.err = true := hpmax m.err hmmem hm1
      have heq : m.err = p.err := errIs_antisymm h1 h2
      have hh : m.handler = p.handler := by
        refine keys_nodup_unique (allPairs tree) hkeys hmp ?_
        rw [heq]
        exact hpp
      show some m.handler = some p.handler
      rw [hh]
    | nohit =>
      rw [htr] at hdfs
      simp only [TraveSpec] at hdfs
      exfalso
      have := hdfs m.err hmmem
      rw [this] at hm1
      cases hm1

theorem C8_bfs_dfs_agree_witness :
    findHandlerBFS [9, 2, 1, 0] chainForest =
      findHandler [9, 2, 1, 0] chainForest ∧
    findHandler [9, 2, 1, 0] chainForest = some 3 :=
  ⟨C8_bfs_dfs_agree chainForest
    (by rw [chainForest_eq]; simp [allErrs])
    chainForest_WF
    (by
      rw [chainForest_eq]
      simp [strictHierarchy, entries, allErrs, errIs])
    [9, 2, 1, 0],
   by
    rw [chainForest_eq]
    simp [findHandler, findPosition, trave, errIs, ErrorNode.handler]⟩

/-- The sibling forest built by the successful registrations `[0]`,
`[2,1,0]`, `[1,0]`. -/
def siblingForest : List (ErrorNode Nat) :=
  [.mk [0] 1 none
    [.mk [2, 1, 0] 2 (some [0]) [], .mk [1, 0] 3 (some [0]) []]]

/-- C8 counterexample: `siblingForest` is reachable by successful `Use`
calls and satisfies the invariant the code maintains (`WFR`), yet on the
error `[2,1,0]` the depth-first lookup returns handler 2 (the exact,
most specific node) while the breadth-first lookup returns handler 3
(the last match in queue order) — the two lookups differ. -/
theorem C8_counterexample :
    applyCalls [(some 1, [some [0]]), (some 2, [some [2, 1, 0]]),
        (some 3, [some [1, 0]])] ([] : List (ErrorNode Nat)) =
      siblingForest ∧
    WFR siblingForest = true ∧
    findHandler [2, 1, 0] siblingForest = some 2 ∧
    findHandlerBFS [2, 1, 0] siblingForest = some 3 ∧
    (some 2 : Option Nat) ≠ some 3 := by
  refine ⟨?_, ?_, ?_, ?_, by decide⟩
  · simp [applyCalls, Use, useList, useOne, traveAttach, findChildren,
      findChildrenLoop, removeRoots, errIs, siblingForest,
      ErrorNode.err]
  · simp [siblingForest, WFR, WF, levelOKb, nodesOK, rootsUnrel,
      subtreeWraps, errIs, ErrorNode.err]
  · simp [siblingForest, findHandler, findPosition, trave, errIs,
      ErrorNode.handler]
  · simp [siblingForest, findHandlerBFS, bfsLoop, errIs,
      ErrorNode.handler]

end Errbin
